import Mathlib

set_option maxRecDepth 8000

/-!
Verification development for the text normalization, deduplication and
recursive chunking core of the itp-rag-processor repository
(`src/embedding-service/app/embedding_service.py` and
`src/embedding-service/app/normalize_service.py`).

Strings are modelled as `List Char` (one entry per Python character).
Several scanners are written with an explicit fuel argument so that they
are structurally recursive and kernel-reducible; each such function is
seeded with fuel at least the length of its input, where it agrees with
the Python original, and the fuel-zero branch is unreachable at every
call site.
-/

namespace ItpRag

/-- Python `sep in text` (substring containment) for a non-empty `sep`;
for empty `sep` Python yields `True`, matched by `isPrefixOf` on `[]`. -/
def hasSub (sep : List Char) : List Char → Bool
  | [] => sep.isEmpty
  | c :: rest => sep.isPrefixOf (c :: rest) || hasSub sep rest

/-- Prepend a character to the first piece of a split list. -/
def consHead (c : Char) : List (List Char) → List (List Char)
  | [] => [[c]]
  | piece :: more => (c :: piece) :: more

/-- Python `text.split(sep)` for non-empty `sep` (fuelled).  Splits on every
non-overlapping occurrence of `sep`, scanning left to right, keeping empty
pieces.  Fuel at least `text.length` suffices. -/
def splitOnSepF (sep : List Char) : Nat → List Char → List (List Char)
  | 0, _ => [[]]
  | _ + 1, [] => [[]]
  | fuel + 1, c :: rest =>
    if !sep.isEmpty && sep.isPrefixOf (c :: rest) then
      [] :: splitOnSepF sep fuel ((c :: rest).drop sep.length)
    else consHead c (splitOnSepF sep fuel rest)

/-- Python `text.split(sep)` for non-empty `sep`. -/
def splitOnSep (sep text : List Char) : List (List Char) :=
  splitOnSepF sep (text.length + 1) text

/-- Python `sep.join(pieces)`. -/
def joinSep (sep : List Char) : List (List Char) → List Char
  | [] => []
  | [p] => p
  | p :: ps => p ++ sep ++ joinSep sep ps

/-- The backward overlap scan of `_recursive_split` (lines 170-183 of
`embedding_service.py`): called with the just-flushed accumulator reversed,
it greedily keeps trailing elements while the tracked length stays within
`chunk_overlap`.  A separator length is charged only when the tracked
length is already positive, exactly as in the source. -/
def overlapGo (sepLen overlap : Nat) : List (List Char) → List (List Char) → Nat →
    List (List Char) × Nat
  | [], acc, accLen => (acc, accLen)
  | e :: rest, acc, accLen =>
    if overlap < accLen + (e.length + (if 0 < accLen then sepLen else 0)) then (acc, accLen)
    else overlapGo sepLen overlap rest (e :: acc)
      (accLen + (e.length + (if 0 < accLen then sepLen else 0)))

/-- Flush the accumulator onto the finished chunk list when it is
non-empty (lines 139-143 and 192-194 of `embedding_service.py`). -/
def flushIfAny (sep : List Char) (final cur : List (List Char)) : List (List Char) :=
  final ++ (if cur.isEmpty then [] else [joinSep sep cur])

/-- State transition for a piece that fits (lines 157-186 of
`embedding_service.py`): when adding the piece would overflow a non-empty
accumulator, flush it and seed the next accumulator with the overlap scan;
otherwise leave the state unchanged.  The piece itself is appended by the
caller. -/
def stepState (sep : List Char) (chunkSize overlap : Nat)
    (final cur : List (List Char)) (curLen : Nat) (s : List Char) :
    List (List Char) × List (List Char) × Nat :=
  if chunkSize < curLen + (if 0 < curLen then sep.length else 0) + s.length then
    if cur.isEmpty then (final, cur, curLen)
    else
      (final ++ [joinSep sep cur], (overlapGo sep.length overlap cur.reverse [] 0).1,
        (overlapGo sep.length overlap cur.reverse [] 0).2)
  else (final, cur, curLen)

/-- The merge loop of `_recursive_split` (lines 129-194 of
`embedding_service.py`).  `sub` is the recursive call on the remaining
separators, `hasNew` is Python's `if new_separators:` test, and the state
is (`final_chunks`, `current_chunk`, `current_length`). -/
def mergeGo (sub : List Char → List (List Char)) (sep : List Char)
    (chunkSize overlap : Nat) (hasNew : Bool) :
    List (List Char) → List (List Char) → List (List Char) → Nat → List (List Char)
  | [], final, cur, _ => flushIfAny sep final cur
  | s :: rest, final, cur, curLen =>
    if chunkSize < s.length then
      -- a single split larger than chunk_size: flush, then recurse on it
      mergeGo sub sep chunkSize overlap hasNew rest
        (flushIfAny sep final cur ++ (if hasNew then sub s else [s])) [] 0
    else
      mergeGo sub sep chunkSize overlap hasNew rest
        (stepState sep chunkSize overlap final cur curLen s).1
        ((stepState sep chunkSize overlap final cur curLen s).2.1 ++ [s])
        ((stepState sep chunkSize overlap final cur curLen s).2.2 + s.length +
          (if (stepState sep chunkSize overlap final cur curLen s).2.1.isEmpty then 0
            else sep.length))

/-- `_recursive_split` (lines 107-196 of `embedding_service.py`).  The
separator-selection loop is fused into the structural recursion on the
separator list: Python's loop breaks at the first separator that is `""`
(leaving `new_separators` empty) or occurs in the text (with
`new_separators` the remaining suffix); if no separator matches, the last
one of the list is used with empty `new_separators`, which coincides with
recursing to the singleton tail. -/
def recursiveSplit (chunkSize overlap : Nat) : List (List Char) → List Char → List (List Char)
  | [] => fun _ => []
  | sep :: rest => fun text =>
    if sep.isEmpty then
      mergeGo (fun _ => []) [] chunkSize overlap false (text.map fun c => [c]) [] [] 0
    else if rest.isEmpty then
      mergeGo (fun _ => []) sep chunkSize overlap false (splitOnSep sep text) [] [] 0
    else if hasSub sep text then
      mergeGo (recursiveSplit chunkSize overlap rest) sep chunkSize overlap true
        (splitOnSep sep text) [] [] 0
    else recursiveSplit chunkSize overlap rest text

/-- The default separator hierarchy of `chunk_text`. -/
def defaultSeparators : List (List Char) := [['\n', '\n'], ['\n'], [' '], []]

/-- `chunk_text` (lines 86-105 of `embedding_service.py`): empty text yields
no chunks, otherwise recursive splitting with the default separators. -/
def chunkText (text : List Char) (chunkSize overlap : Nat) : List (List Char) :=
  if text.isEmpty then [] else recursiveSplit chunkSize overlap defaultSeparators text

/-- Mirror of the merge loop where the recursive call on oversized pieces
may run out of fuel. -/
def mergeGoO (sub : List Char → Option (List (List Char))) (sep : List Char)
    (chunkSize overlap : Nat) (hasNew : Bool) :
    List (List Char) → List (List Char) → List (List Char) → Nat →
    Option (List (List Char))
  | [], final, cur, _ => some (flushIfAny sep final cur)
  | s :: rest, final, cur, curLen =>
    if chunkSize < s.length then
      match (if hasNew then sub s else some [s]) with
      | none => none
      | some cs =>
        mergeGoO sub sep chunkSize overlap hasNew rest (flushIfAny sep final cur ++ cs) [] 0
    else
      mergeGoO sub sep chunkSize overlap hasNew rest
        (stepState sep chunkSize overlap final cur curLen s).1
        ((stepState sep chunkSize overlap final cur curLen s).2.1 ++ [s])
        ((stepState sep chunkSize overlap final cur curLen s).2.2 + s.length +
          (if (stepState sep chunkSize overlap final cur curLen s).2.1.isEmpty then 0
            else sep.length))

/-- Separator selection and merge for the fuelled chunker; `subF` is the
next level of recursion.  Walking to the next separator stays inside the
same Python invocation, so it consumes no fuel. -/
def pickAndMergeF (subF : List (List Char) → List Char → Option (List (List Char)))
    (chunkSize overlap : Nat) : List (List Char) → List Char → Option (List (List Char))
  | [] => fun _ => some []
  | sep :: rest => fun text =>
    if sep.isEmpty then
      mergeGoO (fun _ => none) [] chunkSize overlap false (text.map fun c => [c]) [] [] 0
    else if rest.isEmpty then
      mergeGoO (fun _ => none) sep chunkSize overlap false (splitOnSep sep text) [] [] 0
    else if hasSub sep text then
      mergeGoO (subF rest) sep chunkSize overlap true (splitOnSep sep text) [] [] 0
    else pickAndMergeF subF chunkSize overlap rest text

/-- Fuelled `_recursive_split`: each nested Python invocation consumes one
unit of fuel (one stack frame); `none` means the fuel bound was hit. -/
def recursiveSplitFuel (chunkSize overlap : Nat) :
    Nat → List (List Char) → List Char → Option (List (List Char))
  | 0, _, _ => none
  | fuel + 1, seps, text =>
    pickAndMergeF (recursiveSplitFuel chunkSize overlap fuel) chunkSize overlap seps text

/-- Fuelled `chunk_text` with fuel 4, the length of the default separator
list. -/
def chunkTextFuel (text : List Char) (chunkSize overlap : Nat) :
    Option (List (List Char)) :=
  if text.isEmpty then some []
  else recursiveSplitFuel chunkSize overlap defaultSeparators.length defaultSeparators text

/-- Decidable side condition for the amended size bound: along the control
path `_recursive_split` takes, every piece produced by splitting is
non-empty (the text has no leading, trailing or consecutive occurrences of
the selected separator at any level, recursively for oversized pieces). -/
def goodPiecesB (chunkSize : Nat) : List (List Char) → List Char → Bool
  | [] => fun _ => true
  | sep :: rest => fun text =>
    if sep.isEmpty then true
    else if rest.isEmpty then (splitOnSep sep text).all (fun p => !p.isEmpty)
    else if hasSub sep text then
      (splitOnSep sep text).all (fun p =>
        !p.isEmpty && (decide (p.length ≤ chunkSize) || goodPiecesB chunkSize rest p))
    else goodPiecesB chunkSize rest text

/-- Whitespace as used by Python `str.strip`/`str.split` and the regex
`\s` class, restricted to the ASCII range (the source also treats some
exotic Unicode whitespace this way; no claim depends on those). -/
def isPySpace (c : Char) : Bool :=
  c == ' ' || c == '\t' || c == '\n' || c == '\r' || c == '\x0b' || c == '\x0c'

/-- Entity table modelling the `html.unescape` dependency of `clean_html`
(Python standard library, not repository code), restricted to common
semicolon-terminated entities.  Python decodes in one left-to-right pass
and never rescans a replacement. -/
def entityTable : List (List Char × Char) :=
  [("&amp;".data, '&'), ("&lt;".data, '<'), ("&gt;".data, '>'),
   ("&quot;".data, '"'), ("&#39;".data, '\'')]

/-- First entity of the table matching at the head of `l`. -/
def findEntity (l : List Char) : Option (List Char × Char) :=
  entityTable.find? (fun e => e.1.isPrefixOf l)

/-- One-pass entity decoding (`html.unescape`), fuelled. -/
def htmlUnescapeF : Nat → List Char → List Char
  | 0, _ => []
  | _ + 1, [] => []
  | fuel + 1, c :: rest =>
    if c = '&' then
      match findEntity (c :: rest) with
      | some e => e.2 :: htmlUnescapeF fuel ((c :: rest).drop e.1.length)
      | none => c :: htmlUnescapeF fuel rest
    else c :: htmlUnescapeF fuel rest

def htmlUnescape (l : List Char) : List Char := htmlUnescapeF l.length l

/-- Tag removal `re.sub(r'<[^>]+>', '', text)` from `clean_html`, with the
leftmost-match scanning semantics of `re.sub`, fuelled. -/
def subTagsF : Nat → List Char → List Char
  | 0, _ => []
  | _ + 1, [] => []
  | fuel + 1, c :: rest =>
    if c = '<' then
      match rest.dropWhile (· ≠ '>') with
      | '>' :: after =>
        if (rest.takeWhile (· ≠ '>')).isEmpty then c :: subTagsF fuel rest
        else subTagsF fuel after
      | _ => c :: subTagsF fuel rest
    else c :: subTagsF fuel rest

def subTags (l : List Char) : List Char := subTagsF l.length l

/-- `clean_html` (lines 33-49 of `normalize_service.py`): decode entities,
then remove `<tag>` constructs. -/
def cleanHtml (l : List Char) : List Char := subTags (htmlUnescape l)

/-- Link replacement `re.sub(r'\[([^\]]+)\]\([^\)]+\)', r'\1', text)`,
fuelled. -/
def subLinksF : Nat → List Char → List Char
  | 0, _ => []
  | _ + 1, [] => []
  | fuel + 1, c :: rest =>
    if c = '[' then
      let inner := rest.takeWhile (· ≠ ']')
      match rest.dropWhile (· ≠ ']') with
      | ']' :: '(' :: rest2 =>
        let url := rest2.takeWhile (· ≠ ')')
        match rest2.dropWhile (· ≠ ')') with
        | ')' :: rest3 =>
          if inner.isEmpty || url.isEmpty then c :: subLinksF fuel rest
          else inner ++ subLinksF fuel rest3
        | _ => c :: subLinksF fuel rest
      | _ => c :: subLinksF fuel rest
    else c :: subLinksF fuel rest

def subLinks (l : List Char) : List Char := subLinksF l.length l

/-- Image removal `re.sub(r'!\[([^\]]*)\]\([^\)]+\)', '', text)`, fuelled. -/
def subImagesF : Nat → List Char → List Char
  | 0, _ => []
  | _ + 1, [] => []
  | fuel + 1, c :: rest =>
    if c = '!' then
      match rest with
      | '[' :: rest1 =>
        match rest1.dropWhile (· ≠ ']') with
        | ']' :: '(' :: rest2 =>
          let url := rest2.takeWhile (· ≠ ')')
          match rest2.dropWhile (· ≠ ')') with
          | ')' :: rest3 =>
            if url.isEmpty then c :: subImagesF fuel rest
            else subImagesF fuel rest3
          | _ => c :: subImagesF fuel rest
        | _ => c :: subImagesF fuel rest
      | _ => c :: subImagesF fuel rest
    else c :: subImagesF fuel rest

def subImages (l : List Char) : List Char := subImagesF l.length l

/-- Heading removal `re.sub(r'^#+\s+', '', text, flags=re.MULTILINE)`,
fuelled; `atStart` tracks whether the scanner sits at the start of the
string or right after a newline. -/
def subHeadersF : Nat → Bool → List Char → List Char
  | 0, _, _ => []
  | _ + 1, _, [] => []
  | fuel + 1, atStart, c :: rest =>
    if atStart && c == '#' then
      let rest1 := rest.dropWhile (· = '#')
      let ws := rest1.takeWhile isPySpace
      if ws.isEmpty then c :: subHeadersF fuel false rest
      else subHeadersF fuel (ws.getLast? == some '\n') (rest1.drop ws.length)
    else c :: subHeadersF fuel (c == '\n') rest

def subHeaders (l : List Char) : List Char := subHeadersF l.length true l

/-- Bold and italic marker characters. -/
def isMark (c : Char) : Bool := c == '*' || c == '_'

/-- Emphasis unwrapping `re.sub(r'[*_]{1,3}([^*_]+)[*_]{1,3}', r'\1',
text)`, fuelled.  A run of four or more markers cannot open a match; the
closing side greedily takes at most three markers. -/
def subBoldF : Nat → List Char → List Char
  | 0, _ => []
  | _ + 1, [] => []
  | fuel + 1, c :: rest =>
    if isMark c then
      let run := (c :: rest).takeWhile isMark
      if 3 < run.length then c :: subBoldF fuel rest
      else
        let rest1 := (c :: rest).drop run.length
        let inner := rest1.takeWhile (fun d => !isMark d)
        if inner.isEmpty then c :: subBoldF fuel rest
        else
          let rest2 := rest1.drop inner.length
          let close := rest2.takeWhile isMark
          if close.isEmpty then c :: subBoldF fuel rest
          else inner ++ subBoldF fuel (rest2.drop (min 3 close.length))
    else c :: subBoldF fuel rest

def subBold (l : List Char) : List Char := subBoldF l.length l

/-- Fenced code block removal `re.sub(r'```[^`]*```', '', text,
flags=re.DOTALL)`, fuelled. -/
def subFencesF : Nat → List Char → List Char
  | 0, _ => []
  | _ + 1, [] => []
  | fuel + 1, c :: rest =>
    if c = '`' then
      match rest with
      | '`' :: '`' :: rest1 =>
        match rest1.dropWhile (· ≠ '`') with
        | '`' :: '`' :: '`' :: rest2 => subFencesF fuel rest2
        | _ => c :: subFencesF fuel rest
      | _ => c :: subFencesF fuel rest
    else c :: subFencesF fuel rest

def subFences (l : List Char) : List Char := subFencesF l.length l

/-- Inline code unwrapping with two backticks removed, from
`re.sub(r'`([^`]+)`', r'\1', text)`, fuelled. -/
def subInlineF : Nat → List Char → List Char
  | 0, _ => []
  | _ + 1, [] => []
  | fuel + 1, c :: rest =>
    if c = '`' then
      let body := rest.takeWhile (· ≠ '`')
      match rest.dropWhile (· ≠ '`') with
      | '`' :: rest2 =>
        if body.isEmpty then c :: subInlineF fuel rest
        else body ++ subInlineF fuel rest2
      | _ => c :: subInlineF fuel rest
    else c :: subInlineF fuel rest

def subInline (l : List Char) : List Char := subInlineF l.length l

/-- `clean_markdown` (lines 51-77 of `normalize_service.py`): links,
images, headers, emphasis, fenced blocks, inline code, in source order. -/
def cleanMarkdown (l : List Char) : List Char :=
  subInline (subFences (subBold (subHeaders (subImages (subLinks l)))))

/-- Control characters removed by `remove_special_chars`
(ranges 00-08, 0B-0C, 0E-1F, 7F-9F). -/
def isRemovedCtrl (c : Char) : Bool :=
  (c.toNat ≤ 0x08) || (0x0b ≤ c.toNat && c.toNat ≤ 0x0c) ||
  (0x0e ≤ c.toNat && c.toNat ≤ 0x1f) || (0x7f ≤ c.toNat && c.toNat ≤ 0x9f)

/-- Python `text.replace(old, new)` for a single-character `old`. -/
def replaceCharStr (old : Char) (new : List Char) (l : List Char) : List Char :=
  l.flatMap fun c => if c = old then new else [c]

/-- Replacement table of `remove_special_chars` (typographic quotes,
dashes and the ellipsis), in source order. -/
def typoTable : List (Char × List Char) :=
  [('‘', ['\'']), ('’', ['\'']), ('“', ['"']), ('”', ['"']),
   ('–', ['-']), ('—', ['-']), ('…', ['.', '.', '.'])]

/-- `remove_special_chars` (lines 100-127 of `normalize_service.py`). -/
def removeSpecialChars (l : List Char) : List Char :=
  typoTable.foldl (fun acc e => replaceCharStr e.1 e.2 acc)
    (l.filter fun c => !isRemovedCtrl c)

/-- Space collapsing `re.sub(r' +', ' ', text)`, fuelled. -/
def collapseSpF : Nat → List Char → List Char
  | 0, _ => []
  | _ + 1, [] => []
  | fuel + 1, c :: rest =>
    if c = ' ' then ' ' :: collapseSpF fuel (rest.dropWhile (· = ' '))
    else c :: collapseSpF fuel rest

def collapseSpaces (l : List Char) : List Char := collapseSpF l.length l

/-- Newline collapsing `re.sub(r'\n{3,}', '\n\n', text)`, fuelled: a run
of three or more newlines becomes exactly two. -/
def collapseNLF : Nat → List Char → List Char
  | 0, _ => []
  | _ + 1, [] => []
  | fuel + 1, c :: rest =>
    if c == '\n' && rest.take 2 == ['\n', '\n'] then
      '\n' :: '\n' :: collapseNLF fuel (rest.dropWhile (· = '\n'))
    else c :: collapseNLF fuel rest

def collapseNewlines (l : List Char) : List Char := collapseNLF l.length l

/-- Python `text.strip()`. -/
def pyStrip (l : List Char) : List Char :=
  ((l.dropWhile isPySpace).reverse.dropWhile isPySpace).reverse

/-- `clean_whitespace` (lines 79-98 of `normalize_service.py`): collapse
spaces, collapse newlines, strip. -/
def cleanWhitespace (l : List Char) : List Char :=
  pyStrip (collapseNewlines (collapseSpaces l))

/-- `normalize_text` (lines 129-156 of `normalize_service.py`). -/
def normalizeText (text : List Char) (cleanHtmlTags : Bool) : List Char :=
  if text.isEmpty then []
  else
    cleanWhitespace (removeSpecialChars (cleanMarkdown
      (if cleanHtmlTags then cleanHtml text else text)))

/-- Metadata record of `extract_metadata`. -/
structure Metadata where
  character_count : Nat
  word_count : Nat
  line_count : Nat
  has_html : Bool
  has_urls : Bool
  has_code : Bool
  estimated_reading_time_minutes : Nat
  deriving Repr, DecidableEq

/-- Number of maximal non-whitespace runs: `len(text.split())`. -/
def countWordsGo (inWord : Bool) : List Char → Nat
  | [] => 0
  | c :: rest =>
    if isPySpace c then countWordsGo false rest
    else (if inWord then 0 else 1) + countWordsGo true rest

/-- Search `re.search(r'<[^>]+>', text)` as a boolean. -/
def hasTag : List Char → Bool
  | [] => false
  | c :: rest =>
    (c == '<' && !(rest.takeWhile (· ≠ '>')).isEmpty &&
      (rest.dropWhile (· ≠ '>')).take 1 == ['>']) || hasTag rest

/-- Search for a fenced or inline code token, matching
`re.search(r'```|`[^`]+`', text)` as a boolean. -/
def hasCodeTok : List Char → Bool
  | [] => false
  | c :: rest =>
    (c == '`' && (rest.take 2 == ['`', '`'] ||
      (!(rest.takeWhile (· ≠ '`')).isEmpty &&
        (rest.dropWhile (· ≠ '`')).take 1 == ['`']))) || hasCodeTok rest

/-- Half-even rounding of `w / 200` on exact rationals; the source
computes `round(word_count / 200)` on a Python float, which agrees unless
binary rounding of the quotient crosses a half-integer. -/
def roundDiv200 (w : Nat) : Nat :=
  if w % 200 < 100 then w / 200
  else if 100 < w % 200 then w / 200 + 1
  else if w / 200 % 2 = 0 then w / 200 else w / 200 + 1

/-- `extract_metadata` (lines 275-300 of `normalize_service.py`). -/
def extractMetadata (text : List Char) : Metadata :=
  let wc := countWordsGo false text
  { character_count := text.length
    word_count := wc
    line_count := text.count '\n' + 1
    has_html := hasTag text
    has_urls := hasSub ("http://".data) text || hasSub ("https://".data) text
    has_code := hasCodeTok text
    estimated_reading_time_minutes := max 1 (roundDiv200 wc) }

/-- Length of the longest common prefix of two strings. -/
def cpl : List Char → List Char → Nat
  | [], _ => 0
  | _ :: _, [] => 0
  | a :: as, b :: bs => if a = b then cpl as bs + 1 else 0

/-- One candidate step of the longest-match search: the block starting at
`(i, j)` has size `cpl (a.drop i) (b.drop j)`; the best is replaced only
on a strictly larger size, so the least `(i, j)` wins ties. -/
def flmStep (a b : List Char) (i : Nat) (best : Nat × Nat × Nat) (j : Nat) :
    Nat × Nat × Nat :=
  if best.2.2 < cpl (a.drop i) (b.drop j) then (i, j, cpl (a.drop i) (b.drop j))
  else best

/-- One row of the longest-match search: all start positions in `b` for a
fixed start position `i` in `a`. -/
def flmRow (a b : List Char) (best : Nat × Nat × Nat) (i : Nat) : Nat × Nat × Nat :=
  (List.range b.length).foldl (flmStep a b i) best

/-- Model of `difflib.SequenceMatcher.find_longest_match` over the whole
of both strings (Python standard library dependency of
`calculate_similarity`; both inputs of interest are far below 200
characters, so the autojunk heuristic never fires and the junk set is
empty): the longest matching block, ties broken by least index in `a`,
then least index in `b`. -/
def findLongestMatch (a b : List Char) : Nat × Nat × Nat :=
  (List.range a.length).foldl (flmRow a b) (0, 0, 0)

/-- Total size of all matching blocks of `difflib.SequenceMatcher`:
recursion on both sides of the longest match, fuelled. -/
def matchingTotalF : Nat → List Char → List Char → Nat
  | 0, _, _ => 0
  | fuel + 1, a, b =>
    let m := findLongestMatch a b
    if m.2.2 = 0 then 0
    else
      matchingTotalF fuel (a.take m.1) (b.take m.2.1) + m.2.2 +
        matchingTotalF fuel (a.drop (m.1 + m.2.2)) (b.drop (m.2.1 + m.2.2))

def matchingTotal (a b : List Char) : Nat := matchingTotalF (a.length + b.length) a b

/-- Model of `difflib.SequenceMatcher.ratio` as an exact rational (the
source computes in floating point); two empty strings give ratio 1. -/
def seqRatio (a b : List Char) : ℚ :=
  if a.length + b.length = 0 then 1
  else (2 * matchingTotal a b : ℚ) / ((a.length : ℚ) + (b.length : ℚ))

/-- `calculate_similarity` (lines 158-173 of `normalize_service.py`):
lower-case and strip both texts (ASCII case folding via `Char.toLower`),
then the sequence-matcher ratio. -/
def calculateSimilarity (text1 text2 : List Char) : ℚ :=
  seqRatio (pyStrip (text1.map Char.toLower)) (pyStrip (text2.map Char.toLower))

/-- Result record of `deduplicate_texts` with `return_indices=True`.  The
two count fields are optional because the returned dictionary does not
always contain them: `none` models an absent key. -/
structure DedupResult where
  texts : List (List Char)
  removed_indices : List Nat
  original_count : Option Nat
  deduplicated_count : Option Nat
  deriving Repr, DecidableEq

/-- Signature for exact-duplicate detection (line 204 of
`normalize_service.py`): lower-case, strip, first 200 characters. -/
def signatureOf (t : List Char) : List Char :=
  (pyStrip (t.map Char.toLower)).take 200

/-- Main loop of `deduplicate_texts` (lines 197-227 of
`normalize_service.py`): state is the kept list, the removed indices and
the signature set (modelled as a list with membership). -/
def dedupGo (threshold : ℚ) (minLen : Nat) :
    List (List Char) → Nat → List (List Char) → List Nat → List (List Char) →
    List (List Char) × List Nat
  | [], _, unique, removed, _ => (unique, removed)
  | t :: ts, idx, unique, removed, seen =>
    if t.length < minLen then
      dedupGo threshold minLen ts (idx + 1) unique (removed ++ [idx]) seen
    else if signatureOf t ∈ seen then
      dedupGo threshold minLen ts (idx + 1) unique (removed ++ [idx]) seen
    else if unique.any (fun ex => decide (threshold ≤ calculateSimilarity t ex)) then
      dedupGo threshold minLen ts (idx + 1) unique (removed ++ [idx]) seen
    else dedupGo threshold minLen ts (idx + 1) (unique ++ [t]) removed (seen ++ [signatureOf t])

/-- `deduplicate_texts` (lines 175-241 of `normalize_service.py`) with
`return_indices=True`.  For empty input the source returns early (line
191) with a dictionary holding only the empty text and removed lists and
no `original_count` or `deduplicated_count` key, modelled as `none`. -/
def deduplicateTexts (threshold : ℚ) (minLen : Nat) (texts : List (List Char)) :
    DedupResult :=
  if texts.isEmpty then ⟨[], [], none, none⟩
  else
    let r := dedupGo threshold minLen texts 0 [] [] []
    ⟨r.1, r.2, some texts.length, some r.1.length⟩

/-!
## Helper lemmas
-/

/-- A fold that never updates keeps its initial value. -/
theorem foldlFixed {α β : Type} (f : β → α → β) (b : β) :
    ∀ l : List α, (∀ x ∈ l, f b x = b) → l.foldl f b = b := by
  intro l
  induction l with
  | nil => intro _; rfl
  | cons x xs ih =>
    intro h
    rw [List.foldl_cons, h x (List.mem_cons_self x xs)]
    exact ih fun y hy => h y (List.mem_cons_of_mem x hy)

/-- `consHead` never returns the empty list. -/
theorem consHead_ne_nil (c : Char) : ∀ l, consHead c l ≠ []
  | [] => by simp [consHead]
  | _ :: _ => by simp [consHead]

/-- `splitOnSepF` never returns the empty list. -/
theorem splitOnSepF_ne_nil (sep : List Char) :
    ∀ fuel text, splitOnSepF sep fuel text ≠ [] := by
  intro fuel
  induction fuel with
  | zero => intro text; simp [splitOnSepF]
  | succ fuel _ =>
    intro text
    match text with
    | [] => simp [splitOnSepF]
    | c :: rest =>
      rw [splitOnSepF]
      split
      · simp
      · exact consHead_ne_nil c _

/-- `splitOnSep` never returns the empty list. -/
theorem splitOnSep_ne_nil (sep text : List Char) : splitOnSep sep text ≠ [] :=
  splitOnSepF_ne_nil sep _ text

/-- `flushIfAny` over an appended finished list. -/
theorem flushIfAny_append (sep : List Char) (f1 f2 cur : List (List Char)) :
    flushIfAny sep (f1 ++ f2) cur = f1 ++ flushIfAny sep f2 cur := by
  rw [flushIfAny, flushIfAny, List.append_assoc]

/-- `stepState` over an appended finished list: only the finished-chunk
component depends on it, by a prefix. -/
theorem stepState_append (sep : List Char) (chunkSize overlap : Nat)
    (f1 f2 cur : List (List Char)) (curLen : Nat) (s : List Char) :
    stepState sep chunkSize overlap (f1 ++ f2) cur curLen s =
      (f1 ++ (stepState sep chunkSize overlap f2 cur curLen s).1,
        (stepState sep chunkSize overlap f2 cur curLen s).2.1,
        (stepState sep chunkSize overlap f2 cur curLen s).2.2) := by
  rw [stepState, stepState]
  split_ifs <;> simp

/-- The merge loop distributes over an appended finished list. -/
theorem mergeGo_prefix (sub : List Char → List (List Char)) (sep : List Char)
    (chunkSize overlap : Nat) (hasNew : Bool) :
    ∀ splits f1 f2 cur curLen,
      mergeGo sub sep chunkSize overlap hasNew splits (f1 ++ f2) cur curLen =
        f1 ++ mergeGo sub sep chunkSize overlap hasNew splits f2 cur curLen := by
  intro splits
  induction splits with
  | nil =>
    intro f1 f2 cur curLen
    rw [mergeGo, mergeGo, flushIfAny_append]
  | cons s rest ih =>
    intro f1 f2 cur curLen
    rw [mergeGo, mergeGo]
    split
    · rw [flushIfAny_append, List.append_assoc, ih]
    · rw [stepState_append]
      exact ih f1 _ _ _

/-- If the accumulator or the remaining pieces are non-empty, the merge
loop emits at least one chunk (the recursive call is assumed to emit at
least one chunk on every oversized piece). -/
theorem mergeGo_ne_nil (sub : List Char → List (List Char)) (sep : List Char)
    (chunkSize overlap : Nat) (hasNew : Bool)
    (hsub : hasNew = true → ∀ s, chunkSize < s.length → sub s ≠ []) :
    ∀ splits final cur curLen, (cur ≠ [] ∨ splits ≠ []) →
      mergeGo sub sep chunkSize overlap hasNew splits final cur curLen ≠ [] := by
  intro splits
  induction splits with
  | nil =>
    intro final cur curLen h
    rcases h with h | h
    · rw [mergeGo, flushIfAny, if_neg (by simpa using h)]
      simp
    · exact absurd rfl h
  | cons s rest ih =>
    intro final cur curLen _
    rw [mergeGo]
    split
    · rename_i hbig
      have hB : (if hasNew then sub s else [s]) ≠ [] := by
        cases hn : hasNew with
        | true => simpa using hsub hn s hbig
        | false => simp
      have h1 : flushIfAny sep final cur ++ (if hasNew then sub s else [s]) ≠ [] := by
        intro hcontra
        exact hB (List.append_eq_nil.mp hcontra).2
      calc mergeGo sub sep chunkSize overlap hasNew rest
            (flushIfAny sep final cur ++ (if hasNew then sub s else [s])) [] 0
          = mergeGo sub sep chunkSize overlap hasNew rest
            ((flushIfAny sep final cur ++ (if hasNew then sub s else [s])) ++ []) [] 0 := by
            rw [List.append_nil]
        _ = (flushIfAny sep final cur ++ (if hasNew then sub s else [s])) ++
            mergeGo sub sep chunkSize overlap hasNew rest [] [] 0 :=
            mergeGo_prefix sub sep chunkSize overlap hasNew rest _ [] [] 0
        _ ≠ [] := by
            intro hcontra
            exact h1 (List.append_eq_nil.mp hcontra).1
    · exact ih _ _ _ (Or.inl (by simp))

/-- On a non-empty text with a non-empty separator list,
`_recursive_split` returns at least one chunk. -/
theorem recursiveSplit_ne_nil (chunkSize overlap : Nat) :
    ∀ seps text, seps ≠ [] → text ≠ [] →
      recursiveSplit chunkSize overlap seps text ≠ [] := by
  intro seps
  induction seps with
  | nil => intro text h _; exact absurd rfl h
  | cons sep rest ih =>
    intro text _ htext
    rw [recursiveSplit]
    split
    · exact mergeGo_ne_nil _ _ _ _ _ (by simp) _ _ _ _ (Or.inr (by simpa using htext))
    · split
      · exact mergeGo_ne_nil _ _ _ _ _ (by simp) _ _ _ _ (Or.inr (splitOnSep_ne_nil _ _))
      · beta_reduce
        split
        · rename_i _ hrest _
          refine mergeGo_ne_nil _ _ _ _ _ ?_ _ _ _ _ (Or.inr (splitOnSep_ne_nil _ _))
          intro _ s hbig
          refine ih s (by simpa using hrest) ?_
          intro hs
          rw [hs] at hbig
          simp at hbig
        · rename_i _ hrest _
          exact ih text (by simpa using hrest) htext

/-!
## Claims
-/

/-- C5: `chunk_text` on `"AAAA\n\nBBBB\n\nCCCC\n\nDDDD"` with
`chunk_size=10` and `chunk_overlap=4` returns exactly the three chunks
`"AAAA\n\nBBBB"`, `"BBBB\n\nCCCC"`, `"CCCC\n\nDDDD"` in that order. -/
theorem claim5_concrete_chunks :
    chunkText ("AAAA\n\nBBBB\n\nCCCC\n\nDDDD".data) 10 4 =
      [("AAAA\n\nBBBB".data), ("BBBB\n\nCCCC".data), ("CCCC\n\nDDDD".data)] := by
  decide

/-- C7 counterexample: `extract_metadata("")` does not have every count
equal to zero, because `"".split('\n')` has one element, so `line_count`
is 1. -/
theorem claim7_counterexample : ¬ (extractMetadata []).line_count = 0 := by decide

/-- C7 amended: empty text input is not an error; `chunk_text` returns the
empty chunk list, `normalize_text` returns the empty string, and
`extract_metadata` reports `character_count = 0` and `word_count = 0`, but
`line_count = 1` (splitting the empty string on a newline separator
yields one empty segment). -/
theorem claim7_empty_inputs_amended (chunkSize overlap : Nat) (cleanHtmlTags : Bool) :
    chunkText [] chunkSize overlap = [] ∧
    normalizeText [] cleanHtmlTags = [] ∧
    (extractMetadata []).character_count = 0 ∧
    (extractMetadata []).word_count = 0 ∧
    (extractMetadata []).line_count = 1 := by
  exact ⟨rfl, rfl, rfl, rfl, rfl⟩

/-- C2 counterexample: a call with `chunk_overlap = chunk_size = 10` is
not rejected; `chunk_text` runs and produces a (non-empty) chunk list. -/
theorem claim2_counterexample : chunkText ("AAAA BBBB CCCC DDDD".data) 10 10 ≠ [] := by
  decide

/-- C2 amended: the source performs no validation of
`chunk_overlap ≥ chunk_size`; such a call is not rejected and no error
condition exists — `chunk_text` proceeds and produces a non-empty chunk
list for every non-empty text (and, as claim C10 establishes, it always
terminates, because the merge loop consumes one piece per iteration). -/
theorem claim2_no_validation_amended (text : List Char) (chunkSize overlap : Nat)
    (hov : chunkSize ≤ overlap) (htext : text ≠ []) :
    chunkText text chunkSize overlap ≠ [] := by
  rw [chunkText, if_neg (by simpa using htext)]
  exact recursiveSplit_ne_nil chunkSize overlap defaultSeparators text (by decide) htext

/-- C2 witness. -/
theorem claim2_witness : chunkText ("ab".data) 1 5 ≠ [] :=
  claim2_no_validation_amended ("ab".data) 1 5 (by decide) (by decide)

/-- The common-prefix length of a list with itself is its length. -/
theorem cpl_self : ∀ l : List Char, cpl l l = l.length
  | [] => rfl
  | c :: rest => by rw [cpl, if_pos rfl, cpl_self rest, List.length_cons]

/-- The common-prefix length is at most the first length. -/
theorem cpl_le_left : ∀ a b : List Char, cpl a b ≤ a.length
  | [], _ => Nat.le_refl 0
  | _ :: _, [] => by rw [cpl]; exact Nat.zero_le _
  | a :: as, b :: bs => by
    rw [cpl]
    split
    · exact Nat.succ_le_succ (cpl_le_left as bs)
    · exact Nat.zero_le _

/-- The common-prefix length is at most the second length. -/
theorem cpl_le_right : ∀ a b : List Char, cpl a b ≤ b.length
  | [], _ => Nat.zero_le _
  | _ :: _, [] => by rw [cpl]; exact Nat.zero_le _
  | a :: as, b :: bs => by
    rw [cpl]
    split
    · exact Nat.succ_le_succ (cpl_le_right as bs)
    · exact Nat.zero_le _

/-- A search step never updates from a full-length best. -/
theorem flmStep_fixed (t : List Char) (i j : Nat) (hij : 0 < i ∨ 0 < j) :
    flmStep t t i (0, 0, t.length) j = (0, 0, t.length) := by
  rw [flmStep]
  have hl : cpl (t.drop i) (t.drop j) ≤ t.length - i :=
    le_trans (cpl_le_left _ _) (le_of_eq (List.length_drop i t))
  have hr : cpl (t.drop i) (t.drop j) ≤ t.length - j :=
    le_trans (cpl_le_right _ _) (le_of_eq (List.length_drop j t))
  have hno : ¬ (((0 : Nat), (0 : Nat), t.length) : Nat × Nat × Nat).2.2 <
      cpl (t.drop i) (t.drop j) := by
    simp only
    omega
  exact if_neg hno

/-- On equal inputs the longest matching block is the whole string. -/
theorem findLongestMatch_self (t : List Char) (h : t ≠ []) :
    findLongestMatch t t = (0, 0, t.length) := by
  have hpos : 0 < t.length := List.length_pos.mpr h
  obtain ⟨m, hm⟩ := Nat.exists_eq_succ_of_ne_zero (mt List.length_eq_zero.mp h)
  have hrange : List.range t.length = 0 :: List.map Nat.succ (List.range m) := by
    rw [hm, List.range_succ_eq_map]
  have hrow0 : flmRow t t (0, 0, 0) 0 = (0, 0, t.length) := by
    rw [flmRow, hrange, List.foldl_cons]
    rw [show flmStep t t 0 (0, 0, 0) 0 = (0, 0, t.length) by
      rw [flmStep, List.drop_zero, cpl_self, if_pos]
      exact hpos]
    refine foldlFixed _ _ _ ?_
    intro j hj
    obtain ⟨j0, _, rfl⟩ := List.mem_map.mp hj
    exact flmStep_fixed t 0 j0.succ (Or.inr (Nat.succ_pos j0))
  have hrow : ∀ i : Nat, 0 < i → flmRow t t (0, 0, t.length) i = (0, 0, t.length) := by
    intro i hi
    rw [flmRow]
    refine foldlFixed _ _ _ ?_
    intro j _
    exact flmStep_fixed t i j (Or.inl hi)
  rw [findLongestMatch, hrange, List.foldl_cons]
  rw [show flmRow t t (0, 0, 0) 0 = (0, 0, t.length) from hrow0]
  refine foldlFixed _ _ _ ?_
  intro i hi
  obtain ⟨i0, _, rfl⟩ := List.mem_map.mp hi
  exact hrow i0.succ (Nat.succ_pos i0)

/-- The matching total of two empty strings is zero at any fuel. -/
theorem matchingTotalF_nil : ∀ fuel, matchingTotalF fuel [] [] = 0
  | 0 => rfl
  | _ + 1 => rfl

/-- On equal inputs the matching total is the full length. -/
theorem matchingTotal_self (t : List Char) : matchingTotal t t = t.length := by
  rcases eq_or_ne t [] with rfl | h
  · rfl
  · have hpos : 0 < t.length := List.length_pos.mpr h
    obtain ⟨fuel, hf⟩ : ∃ f, t.length + t.length = f + 1 := ⟨t.length + t.length - 1, by omega⟩
    rw [matchingTotal, hf, matchingTotalF, findLongestMatch_self t h]
    simp only
    rw [if_neg (by omega)]
    simp [List.drop_length, matchingTotalF_nil]

/-- On equal inputs the sequence-matcher ratio is exactly 1. -/
theorem seqRatio_self (t : List Char) : seqRatio t t = 1 := by
  rcases eq_or_ne t [] with rfl | h
  · rfl
  · have hpos : 0 < t.length := List.length_pos.mpr h
    rw [seqRatio, if_neg (by omega), matchingTotal_self]
    have hq : ((t.length : ℚ) + t.length) ≠ 0 := by
      have : (0 : ℚ) < t.length := by exact_mod_cast hpos
      linarith
    field_simp
    ring

/-- C4 counterexample: the similarity ratio of the Deduplicator is not
symmetric.  For `a = "mqxxyy"` and `b = "yysmtxx"` the longest matching
block is tied between `"xx"` and `"yy"`; the tie-break by least index in
the first argument selects different blocks in the two orientations,
giving ratio 6/13 one way and 4/13 the other. -/
theorem claim4_counterexample :
    calculateSimilarity ("mqxxyy".data) ("yysmtxx".data) ≠
      calculateSimilarity ("yysmtxx".data) ("mqxxyy".data) := by
  have h1 : calculateSimilarity ("mqxxyy".data) ("yysmtxx".data) = 6 / 13 := by
    rw [calculateSimilarity]
    rw [show pyStrip (("mqxxyy".data).map Char.toLower) = "mqxxyy".data from by decide]
    rw [show pyStrip (("yysmtxx".data).map Char.toLower) = "yysmtxx".data from by decide]
    rw [seqRatio]
    rw [show matchingTotal ("mqxxyy".data) ("yysmtxx".data) = 3 from by decide]
    rw [show ("mqxxyy".data).length = 6 from by decide]
    rw [show ("yysmtxx".data).length = 7 from by decide]
    norm_num
  have h2 : calculateSimilarity ("yysmtxx".data) ("mqxxyy".data) = 4 / 13 := by
    rw [calculateSimilarity]
    rw [show pyStrip (("yysmtxx".data).map Char.toLower) = "yysmtxx".data from by decide]
    rw [show pyStrip (("mqxxyy".data).map Char.toLower) = "mqxxyy".data from by decide]
    rw [seqRatio]
    rw [show matchingTotal ("yysmtxx".data) ("mqxxyy".data) = 2 from by decide]
    rw [show ("yysmtxx".data).length = 7 from by decide]
    rw [show ("mqxxyy".data).length = 6 from by decide]
    norm_num
  rw [h1, h2]
  norm_num

/-- C4 amended: the similarity ratio used by the Deduplicator is
reflexive — `calculate_similarity(a, a) = 1.0` for every string `a` — but
it is not symmetric in general, because the longest-match tie-break of
the sequence matcher depends on the argument order (see the
counterexample). -/
theorem claim4_reflexivity_amended (a : List Char) : calculateSimilarity a a = 1 := by
  rw [calculateSimilarity]
  exact seqRatio_self _

/-- The fuelled merge loop agrees with the total one when the recursive
call agrees. -/
theorem mergeGoO_eq (sub : List Char → List (List Char))
    (subO : List Char → Option (List (List Char))) (sep : List Char)
    (chunkSize overlap : Nat) (hasNew : Bool)
    (h : hasNew = true → ∀ s, subO s = some (sub s)) :
    ∀ splits final cur curLen,
      mergeGoO subO sep chunkSize overlap hasNew splits final cur curLen =
        some (mergeGo sub sep chunkSize overlap hasNew splits final cur curLen) := by
  intro splits
  induction splits with
  | nil => intro final cur curLen; rfl
  | cons s rest ih =>
    intro final cur curLen
    rw [mergeGoO, mergeGo]
    split
    · rcases Bool.eq_false_or_eq_true hasNew with hn | hn
      · subst hn
        rw [if_pos rfl, if_pos rfl, h rfl s]
        exact ih _ _ _
      · subst hn
        rw [if_neg (by simp), if_neg (by simp)]
        exact ih _ _ _
    · exact ih _ _ _

/-- Fuel adequacy: with fuel at least the length of a non-empty separator
list, the fuelled splitter returns exactly the chunks of
`_recursive_split`. -/
theorem recursiveSplitFuel_eq (chunkSize overlap : Nat) :
    ∀ fuel seps text, seps ≠ [] → seps.length ≤ fuel →
      recursiveSplitFuel chunkSize overlap fuel seps text =
        some (recursiveSplit chunkSize overlap seps text) := by
  intro fuel
  induction fuel with
  | zero =>
    intro seps text hne hlen
    exact absurd (List.length_eq_zero.mp (Nat.le_zero.mp hlen)) hne
  | succ fuel ihf =>
    intro seps text hne hlen
    rw [recursiveSplitFuel]
    clear hne
    revert hlen
    induction seps with
    | nil => intro _; rfl
    | cons sep rest ihs =>
      intro hlen
      rw [pickAndMergeF, recursiveSplit]
      beta_reduce
      split
      · exact mergeGoO_eq _ _ _ _ _ _ (by simp) _ _ _ _
      · split
        · exact mergeGoO_eq _ _ _ _ _ _ (by simp) _ _ _ _
        · split
          · rename_i _ hrest _
            refine mergeGoO_eq _ _ _ _ _ _ ?_ _ _ _ _
            intro _ s
            refine ihf rest s (by simpa using hrest) ?_
            simpa using Nat.le_of_succ_le_succ hlen
          · refine ihs ?_
            simp only [List.length_cons] at hlen ⊢
            omega

/-- C10: `chunk_text` terminates on every input for every
`chunk_size > 0` and every `chunk_overlap`, including
`chunk_overlap ≥ chunk_size`: the merge loop consumes one piece per
iteration and each recursive call receives a strictly shorter separator
list, so a stack-depth budget equal to the default separator list length
(4) already suffices — the fuelled splitter never runs out and computes
exactly `chunk_text`. -/
theorem claim10_terminates (text : List Char) (chunkSize overlap : Nat)
    (h : 0 < chunkSize) :
    chunkTextFuel text chunkSize overlap = some (chunkText text chunkSize overlap) := by
  by_cases htext : text.isEmpty = true
  · rw [chunkTextFuel, chunkText, if_pos htext, if_pos htext]
  · rw [chunkTextFuel, chunkText, if_neg htext, if_neg htext]
    exact recursiveSplitFuel_eq chunkSize overlap defaultSeparators.length
      defaultSeparators text (by decide) (Nat.le_refl _)

/-- C10 witness: a concrete call with overlap far beyond the chunk size. -/
theorem claim10_witness :
    chunkTextFuel ("hi there world".data) 3 99 =
      some (chunkText ("hi there world".data) 3 99) :=
  claim10_terminates ("hi there world".data) 3 99 (by decide)

/-- The kept list of the deduplication loop extends the accumulator by a
sublist of the remaining input. -/
theorem dedupGo_sublist (threshold : ℚ) (minLen : Nat) :
    ∀ ts idx unique removed seen, ∃ u,
      (dedupGo threshold minLen ts idx unique removed seen).1 = unique ++ u ∧
        u.Sublist ts := by
  intro ts
  induction ts with
  | nil =>
    intro idx unique removed seen
    exact ⟨[], by simp [dedupGo]⟩
  | cons t rest ih =>
    intro idx unique removed seen
    rw [dedupGo]
    split
    · obtain ⟨u, hu, hsub⟩ := ih (idx + 1) unique (removed ++ [idx]) seen
      exact ⟨u, hu, hsub.cons t⟩
    · split
      · obtain ⟨u, hu, hsub⟩ := ih (idx + 1) unique (removed ++ [idx]) seen
        exact ⟨u, hu, hsub.cons t⟩
      · split
        · obtain ⟨u, hu, hsub⟩ := ih (idx + 1) unique (removed ++ [idx]) seen
          exact ⟨u, hu, hsub.cons t⟩
        · obtain ⟨u, hu, hsub⟩ := ih (idx + 1) (unique ++ [t]) removed
            (seen ++ [signatureOf t])
          exact ⟨t :: u, by rw [hu]; simp, hsub.cons₂ t⟩

/-- C8: for every input list (and any threshold and minimum length), the
deduplicated text list returned by `deduplicate_texts` is an
order-preserving subsequence of the input: surviving items appear exactly
as they did in the input and in the same relative order. -/
theorem claim8_order_preserving (threshold : ℚ) (minLen : Nat)
    (texts : List (List Char)) :
    (deduplicateTexts threshold minLen texts).texts.Sublist texts := by
  rw [deduplicateTexts]
  split
  · rename_i hempty
    simp [List.isEmpty_iff.mp hempty]
  · obtain ⟨u, hu, hsub⟩ := dedupGo_sublist threshold minLen texts 0 [] [] []
    simpa [hu] using hsub

/-- Index bookkeeping of the deduplication loop: removed indices stay
strictly increasing and within range, and every input position goes to
exactly one of the kept or removed side. -/
theorem dedupGo_indices (threshold : ℚ) (minLen : Nat) :
    ∀ ts idx unique removed seen,
      (∀ i ∈ removed, i < idx) → List.Chain' (· < ·) removed →
      ((∀ i ∈ (dedupGo threshold minLen ts idx unique removed seen).2,
          i < idx + ts.length) ∧
        List.Chain' (· < ·) (dedupGo threshold minLen ts idx unique removed seen).2 ∧
        (dedupGo threshold minLen ts idx unique removed seen).1.length +
            (dedupGo threshold minLen ts idx unique removed seen).2.length =
          unique.length + removed.length + ts.length) := by
  intro ts
  induction ts with
  | nil =>
    intro idx unique removed seen hbound hchain
    refine ⟨?_, hchain, by simp [dedupGo]⟩
    intro i hi
    have := hbound i (by simpa [dedupGo] using hi)
    omega
  | cons t rest ih =>
    intro idx unique removed seen hbound hchain
    have hbound1 : ∀ i ∈ removed ++ [idx], i < idx + 1 := by
      intro i hi
      rcases List.mem_append.mp hi with hi | hi
      · have := hbound i hi; omega
      · simp at hi; omega
    have hchain1 : List.Chain' (· < ·) (removed ++ [idx]) := by
      refine List.Chain'.append hchain (List.chain'_singleton idx) ?_
      intro x hx y hy
      simp only [List.head?_cons, Option.mem_def, Option.some.injEq] at hy
      subst hy
      exact hbound x (List.mem_of_mem_getLast? hx)
    rw [dedupGo]
    split
    · obtain ⟨h1, h2, h3⟩ := ih (idx + 1) unique (removed ++ [idx]) seen hbound1 hchain1
      simp only [List.length_append, List.length_cons, List.length_nil] at h3 ⊢
      refine ⟨?_, h2, by omega⟩
      intro i hi
      have := h1 i hi
      omega
    · split
      · obtain ⟨h1, h2, h3⟩ := ih (idx + 1) unique (removed ++ [idx]) seen hbound1 hchain1
        simp only [List.length_append, List.length_cons, List.length_nil] at h3 ⊢
        refine ⟨?_, h2, by omega⟩
        intro i hi
        have := h1 i hi
        omega
      · split
        · obtain ⟨h1, h2, h3⟩ := ih (idx + 1) unique (removed ++ [idx]) seen hbound1 hchain1
          simp only [List.length_append, List.length_cons, List.length_nil] at h3 ⊢
          refine ⟨?_, h2, by omega⟩
          intro i hi
          have := h1 i hi
          omega
        · have hbound2 : ∀ i ∈ removed, i < idx + 1 := fun i hi => by
            have := hbound i hi; omega
          obtain ⟨h1, h2, h3⟩ := ih (idx + 1) (unique ++ [t]) removed
            (seen ++ [signatureOf t]) hbound2 hchain
          simp only [List.length_append, List.length_cons, List.length_nil] at h3 ⊢
          refine ⟨?_, h2, by omega⟩
          intro i hi
          have := h1 i hi
          omega

/-- C9: on the empty input list `deduplicate_texts` returns early (line
191 of `normalize_service.py`) with a dictionary containing only `texts`
and `removed_indices`: the `original_count` and `deduplicated_count` keys
are absent, so the claimed count identity is not reported on this input. -/
theorem claim9_counterexample :
    (deduplicateTexts (17/20 : ℚ) 50 []).original_count = none ∧
      (deduplicateTexts (17/20 : ℚ) 50 []).deduplicated_count = none :=
  ⟨rfl, rfl⟩

/-- C9 (amended): `deduplicate_texts` partitions the input indices: the
removed index list is strictly increasing (so no index appears twice) and
every removed index is a valid input position; the number of kept items
plus the number of removed indices is the input length, so each input
index is accounted for exactly once on one of the two sides.  The two
reported counts are the input length and the kept length whenever the
input is non-empty; on the empty input the early return omits both count
keys (see the counterexample), so there the count identity is vacuous. -/
theorem claim9_index_partition_amended (threshold : ℚ) (minLen : Nat)
    (texts : List (List Char)) :
    List.Chain' (· < ·) (deduplicateTexts threshold minLen texts).removed_indices ∧
      (∀ i ∈ (deduplicateTexts threshold minLen texts).removed_indices,
        i < texts.length) ∧
      (deduplicateTexts threshold minLen texts).texts.length +
          (deduplicateTexts threshold minLen texts).removed_indices.length =
        texts.length ∧
      (texts ≠ [] →
        (deduplicateTexts threshold minLen texts).original_count =
            some texts.length ∧
          (deduplicateTexts threshold minLen texts).deduplicated_count =
            some (deduplicateTexts threshold minLen texts).texts.length) ∧
      (texts = [] →
        (deduplicateTexts threshold minLen texts).original_count = none ∧
          (deduplicateTexts threshold minLen texts).deduplicated_count = none) := by
  by_cases hempty : texts.isEmpty = true
  · obtain rfl := List.isEmpty_iff.mp hempty
    exact ⟨List.chain'_nil, by simp [deduplicateTexts], by simp [deduplicateTexts],
      fun h => absurd rfl h, fun _ => ⟨rfl, rfl⟩⟩
  · have hne : texts ≠ [] := fun h => hempty (by rw [h]; rfl)
    rw [deduplicateTexts, if_neg hempty]
    obtain ⟨h1, h2, h3⟩ := dedupGo_indices threshold minLen texts 0 [] [] []
      (by simp) List.chain'_nil
    refine ⟨h2, ?_, ?_, fun _ => ⟨rfl, rfl⟩, fun h => absurd h hne⟩
    · intro i hi
      have := h1 i hi
      omega
    · simpa using h3

/-- Equation for `joinSep` on a cons with non-empty tail. -/
theorem joinSep_cons (sep : List Char) (p : List Char) (ps : List (List Char))
    (h : ps ≠ []) : joinSep sep (p :: ps) = p ++ sep ++ joinSep sep ps := by
  cases ps with
  | nil => exact absurd rfl h
  | cons q qs => rfl

/-- `joinSep` distributes over appending non-empty piece lists. -/
theorem joinSep_append (sep : List Char) :
    ∀ a b : List (List Char), a ≠ [] → b ≠ [] →
      joinSep sep (a ++ b) = joinSep sep a ++ sep ++ joinSep sep b := by
  intro a
  induction a with
  | nil => intro b h _; exact absurd rfl h
  | cons p ps ih =>
    intro b _ hb
    cases ps with
    | nil =>
      simp only [List.cons_append, List.nil_append]
      rw [joinSep_cons sep p b hb]
      rfl
    | cons q qs =>
      rw [List.cons_append, joinSep_cons sep p ((q :: qs) ++ b) (by simp),
        joinSep_cons sep p (q :: qs) (by simp), ih b (by simp) hb]
      simp [List.append_assoc]

/-- `joinSep` after prepending a character to the first piece. -/
theorem joinSep_consHead (sep : List Char) (c : Char) :
    ∀ S, S ≠ [] → joinSep sep (consHead c S) = c :: joinSep sep S := by
  intro S hS
  cases S with
  | nil => exact absurd rfl hS
  | cons p ps =>
    cases ps with
    | nil => rfl
    | cons q qs => rfl

/-- Joining the pieces of a split with the separator reconstructs the
text (fuelled version). -/
theorem joinSep_splitOnSepF (sep : List Char) (hsep : sep ≠ []) :
    ∀ fuel text, text.length < fuel →
      joinSep sep (splitOnSepF sep fuel text) = text := by
  intro fuel
  induction fuel with
  | zero => intro text h; exact absurd h (Nat.not_lt_zero _)
  | succ fuel ih =>
    intro text hlen
    match text with
    | [] => rfl
    | c :: rest =>
      rw [splitOnSepF]
      split
      · rename_i hpre
        simp only [Bool.and_eq_true, Bool.not_eq_true'] at hpre
        obtain ⟨u, hu⟩ := List.isPrefixOf_iff_prefix.mp hpre.2
        have hseplen : 1 ≤ sep.length := by
          cases sep with
          | nil => exact absurd rfl hsep
          | cons x xs => simp
        rw [joinSep_cons sep [] _ (splitOnSepF_ne_nil sep fuel _)]
        rw [ih ((c :: rest).drop sep.length) (by
          rw [List.length_drop]
          simp only [List.length_cons] at hlen ⊢
          omega)]
        rw [← hu, List.drop_left]
        simp
      · rw [joinSep_consHead sep c _ (splitOnSepF_ne_nil sep fuel rest),
          ih rest (by simp only [List.length_cons] at hlen; omega)]

/-- Joining the pieces of a split with the separator reconstructs the
text. -/
theorem joinSep_splitOnSep (sep text : List Char) (hsep : sep ≠ []) :
    joinSep sep (splitOnSep sep text) = text :=
  joinSep_splitOnSepF sep hsep _ text (Nat.lt_succ_self _)

/-- Joining single-character pieces with the empty separator reconstructs
the text. -/
theorem joinNilMap : ∀ text : List Char, joinSep [] (text.map fun c => [c]) = text := by
  intro text
  induction text with
  | nil => rfl
  | cons c rest ih =>
    cases rest with
    | nil => rfl
    | cons d ds =>
      rw [List.map_cons, joinSep_cons [] [c] _ (by simp), ih]
      simp

/-- The join of a middle run of pieces is a contiguous substring of the
join of all pieces. -/
theorem joinSep_infix_middle (sep : List Char) (pre mid post : List (List Char))
    (hmid : mid ≠ []) : joinSep sep mid <:+: joinSep sep (pre ++ mid ++ post) := by
  rcases eq_or_ne pre [] with rfl | hpre
  · rcases eq_or_ne post [] with rfl | hpost
    · rw [List.nil_append, List.append_nil]
    · rw [List.nil_append, joinSep_append sep mid post hmid hpost]
      exact ⟨[], sep ++ joinSep sep post, by simp [List.append_assoc]⟩
  · rcases eq_or_ne post [] with rfl | hpost
    · rw [List.append_nil, joinSep_append sep pre mid hpre hmid]
      exact ⟨joinSep sep pre ++ sep, [], by simp [List.append_assoc]⟩
    · rw [List.append_assoc, joinSep_append sep pre (mid ++ post) hpre (by simp [hmid]),
        joinSep_append sep mid post hmid hpost]
      exact ⟨joinSep sep pre ++ sep, sep ++ joinSep sep post, by simp [List.append_assoc]⟩

/-- The overlap scan keeps a reversed prefix of its element list in front
of the accumulator. -/
theorem overlapGo_take (sepLen overlap : Nat) :
    ∀ elems acc accLen, ∃ k,
      (overlapGo sepLen overlap elems acc accLen).1 = (elems.take k).reverse ++ acc := by
  intro elems
  induction elems with
  | nil => intro acc accLen; exact ⟨0, by simp [overlapGo]⟩
  | cons e rest ih =>
    intro acc accLen
    rw [overlapGo]
    by_cases hstop : overlap < accLen + (e.length + (if 0 < accLen then sepLen else 0))
    · exact ⟨0, by rw [if_pos hstop]; simp⟩
    · rw [if_neg hstop]
      obtain ⟨k, hk⟩ := ih (e :: acc) (accLen + (e.length + (if 0 < accLen then sepLen else 0)))
      refine ⟨k + 1, ?_⟩
      rw [hk]
      simp [List.take_succ_cons, List.reverse_cons, List.append_assoc]

/-- Case analysis on the fit-path state transition: either nothing
happened, or the accumulator was flushed as one chunk and the new
accumulator is a suffix of the old one. -/
theorem stepState_cases (sep : List Char) (chunkSize overlap : Nat)
    (final cur : List (List Char)) (curLen : Nat) (s : List Char) :
    stepState sep chunkSize overlap final cur curLen s = (final, cur, curLen) ∨
      (cur ≠ [] ∧
        (stepState sep chunkSize overlap final cur curLen s).1 =
          final ++ [joinSep sep cur] ∧
        ∃ d, cur = d ++ (stepState sep chunkSize overlap final cur curLen s).2.1) := by
  rw [stepState]
  by_cases hover :
      chunkSize < curLen + (if 0 < curLen then sep.length else 0) + s.length
  · rw [if_pos hover]
    by_cases hcur : cur.isEmpty = true
    · rw [if_pos hcur]
      exact Or.inl rfl
    · rw [if_neg hcur]
      right
      refine ⟨by simpa using hcur, rfl, ?_⟩
      dsimp only
      obtain ⟨k, hk⟩ := overlapGo_take sep.length overlap cur.reverse [] 0
      rw [hk, List.append_nil]
      obtain ⟨t, ht⟩ := List.take_prefix k cur.reverse
      refine ⟨t.reverse, ?_⟩
      have h2 := congrArg List.reverse ht
      simp only [List.reverse_append, List.reverse_reverse] at h2
      exact h2.symm
  · rw [if_neg hover]
    exact Or.inl rfl

/-- Every chunk the merge loop emits is a contiguous substring of the
joined piece list, provided the recursive call has the same property on
its piece and the accumulator is a contiguous run of the pieces. -/
theorem mergeGo_infix (sub : List Char → List (List Char)) (sep : List Char)
    (chunkSize overlap : Nat) (hasNew : Bool) (splits0 : List (List Char))
    (hsub : ∀ s ∈ splits0, ∀ c ∈ sub s, c <:+: s) :
    ∀ splits pre final cur curLen,
      (pre ++ cur) ++ splits = splits0 →
      (∀ c ∈ final, c <:+: joinSep sep splits0) →
      ∀ c ∈ mergeGo sub sep chunkSize overlap hasNew splits final cur curLen,
        c <:+: joinSep sep splits0 := by
  intro splits
  induction splits with
  | nil =>
    intro pre final cur curLen hsplit hfinal c hc
    rw [mergeGo, flushIfAny] at hc
    rcases List.mem_append.mp hc with hc | hc
    · exact hfinal c hc
    · rcases eq_or_ne cur [] with rfl | hcur
      · simp at hc
      · rw [if_neg (by simpa using hcur), List.mem_singleton] at hc
        subst hc
        rw [← hsplit, List.append_nil]
        have := joinSep_infix_middle sep pre cur [] hcur
        rwa [List.append_nil] at this
  | cons s rest ih =>
    intro pre final cur curLen hsplit hfinal c hc
    have hflush : ∀ c' ∈ flushIfAny sep final cur, c' <:+: joinSep sep splits0 := by
      intro c' hc'
      rw [flushIfAny] at hc'
      rcases List.mem_append.mp hc' with hc' | hc'
      · exact hfinal c' hc'
      · rcases eq_or_ne cur [] with rfl | hcur
        · simp at hc'
        · rw [if_neg (by simpa using hcur), List.mem_singleton] at hc'
          subst hc'
          rw [← hsplit]
          exact joinSep_infix_middle sep pre cur (s :: rest) hcur
    rw [mergeGo] at hc
    split at hc
    · -- oversized piece
      have hsinfix : s <:+: joinSep sep splits0 := by
        have h1 : joinSep sep [s] <:+: joinSep sep ((pre ++ cur) ++ [s] ++ rest) :=
          joinSep_infix_middle sep (pre ++ cur) [s] rest (by simp)

        rw [← hsplit]
        rw [show ((pre ++ cur) ++ [s] ++ rest) = ((pre ++ cur) ++ s :: rest) by
          simp [List.append_assoc]] at h1
        exact h1
      refine ih ((pre ++ cur) ++ [s]) _ [] 0 ?_ ?_ c hc
      · rw [← hsplit]
        simp [List.append_assoc]
      · intro c' hc'
        rcases List.mem_append.mp hc' with hc' | hc'
        · exact hflush c' hc'
        · split at hc'
          · exact (hsub s (by rw [← hsplit]; simp) c' hc').trans hsinfix
          · rw [List.mem_singleton] at hc'
            subst hc'
            exact hsinfix
    · -- fitting piece
      rcases stepState_cases sep chunkSize overlap final cur curLen s with heq | ⟨hcur, h1, d, hd⟩
      · rw [heq] at hc
        refine ih pre _ (cur ++ [s]) _ ?_ hfinal c hc
        rw [← hsplit]
        simp [List.append_assoc]
      · refine ih (pre ++ d) _
          ((stepState sep chunkSize overlap final cur curLen s).2.1 ++ [s]) _ ?_ ?_ c hc
        · rw [← hsplit]
          conv_rhs => rw [hd]
          simp [List.append_assoc]
        · intro c' hc'
          rw [h1] at hc'
          rcases List.mem_append.mp hc' with hc' | hc'
          · exact hfinal c' hc'
          · rw [List.mem_singleton] at hc'
            subst hc'
            rw [← hsplit]
            exact joinSep_infix_middle sep pre cur (s :: rest) hcur

/-- Every chunk of `_recursive_split` is a contiguous substring of the
text. -/
theorem recursiveSplit_infix (chunkSize overlap : Nat) :
    ∀ seps text, ∀ c ∈ recursiveSplit chunkSize overlap seps text, c <:+: text := by
  intro seps
  induction seps with
  | nil => intro text c hc; simp [recursiveSplit] at hc
  | cons sep rest ih =>
    intro text c hc
    rw [recursiveSplit] at hc
    beta_reduce at hc
    split at hc
    · have := mergeGo_infix (fun _ => []) [] chunkSize overlap false
        (text.map fun c => [c]) (by intro s _ c' hc'; simp at hc')
        (text.map fun c => [c]) [] [] [] 0 (by simp) (by simp) c hc
      rwa [joinNilMap] at this
    · split at hc
      · rename_i hsep _
        have := mergeGo_infix (fun _ => []) sep chunkSize overlap false
          (splitOnSep sep text) (by intro s _ c' hc'; simp at hc')
          (splitOnSep sep text) [] [] [] 0 (by simp) (by simp) c hc
        rwa [joinSep_splitOnSep sep text (by simpa using hsep)] at this
      · split at hc
        · rename_i hsep _ _
          have := mergeGo_infix (recursiveSplit chunkSize overlap rest) sep chunkSize
            overlap true (splitOnSep sep text) (fun s _ => ih s)
            (splitOnSep sep text) [] [] [] 0 (by simp) (by simp) c hc
          rwa [joinSep_splitOnSep sep text (by simpa using hsep)] at this
        · exact ih text c hc

/-- C6 counterexample: flushed chunks are not trimmed and empty results
are not discarded.  `chunk_text("\n\naaa", 2, 0)` first accumulates the
empty piece before the paragraph break, then flushes it when the
oversized piece `"aaa"` arrives, emitting the empty chunk `""`. -/
theorem claim6_counterexample : ([] : List Char) ∈ chunkText ("\n\naaa".data) 2 0 := by
  decide

/-- C6 amended: every chunk the chunker emits is the join of a contiguous
run of pieces with the selected separator, emitted verbatim: no trimming
is applied and empty joins are not discarded, so a chunk may be empty or
carry leading or trailing whitespace.  Consequently every emitted chunk
is a contiguous substring of the input text. -/
theorem claim6_chunks_verbatim_amended (text : List Char) (chunkSize overlap : Nat)
    (c : List Char) (hc : c ∈ chunkText text chunkSize overlap) : c <:+: text := by
  rw [chunkText] at hc
  split at hc
  · simp at hc
  · exact recursiveSplit_infix chunkSize overlap defaultSeparators text c hc

/-- C6 witness: the first chunk of a concrete call is a substring of the
input. -/
theorem claim6_witness : ("aa".data) <:+: ("\n\naaa".data) :=
  claim6_chunks_verbatim_amended ("\n\naaa".data) 2 0 ("aa".data) (by decide)

/-- A join of non-empty pieces over a non-empty list is non-empty. -/
theorem joinSep_pos (sep : List Char) (l : List (List Char)) (hl : l ≠ [])
    (hne : ∀ p ∈ l, p ≠ []) : 0 < (joinSep sep l).length := by
  cases l with
  | nil => exact absurd rfl hl
  | cons p ps =>
    have hp : 0 < p.length := List.length_pos.mpr (hne p (List.mem_cons_self p ps))
    cases ps with
    | nil => simpa [joinSep] using hp
    | cons q qs =>
      rw [joinSep_cons sep p (q :: qs) (by simp)]
      simp only [List.length_append]
      omega

/-- Length of a join after appending one piece at the end. -/
theorem joinSep_snoc_length (sep : List Char) (l : List (List Char)) (x : List Char) :
    (joinSep sep (l ++ [x])).length =
      (joinSep sep l).length + x.length + (if l.isEmpty then 0 else sep.length) := by
  rcases eq_or_ne l [] with rfl | hl
  · simp [joinSep]
  · rw [joinSep_append sep l [x] hl (by simp), if_neg (by simpa using hl)]
    simp only [List.length_append]
    have : joinSep sep [x] = x := rfl
    rw [this]
    omega

/-- Specification of the overlap scan when every piece is non-empty: the
tracked length is exactly the length of the join of the kept pieces, it
stays within the overlap budget, and the kept pieces are non-empty. -/
theorem overlapGo_spec (sep : List Char) (overlap : Nat) :
    ∀ elems acc accLen,
      (∀ p ∈ elems, p ≠ []) → (∀ p ∈ acc, p ≠ []) →
      accLen = (joinSep sep acc).length → accLen ≤ overlap →
      ((overlapGo sep.length overlap elems acc accLen).2 =
          (joinSep sep (overlapGo sep.length overlap elems acc accLen).1).length ∧
        (overlapGo sep.length overlap elems acc accLen).2 ≤ overlap ∧
        ∀ p ∈ (overlapGo sep.length overlap elems acc accLen).1, p ≠ []) := by
  intro elems
  induction elems with
  | nil =>
    intro acc accLen _ hacc hlen hbud
    exact ⟨hlen, hbud, hacc⟩
  | cons e rest ih =>
    intro acc accLen helems hacc hlen hbud
    rw [overlapGo]
    by_cases hstop : overlap < accLen + (e.length + (if 0 < accLen then sep.length else 0))
    · rw [if_pos hstop]
      exact ⟨hlen, hbud, hacc⟩
    · rw [if_neg hstop]
      have he : e ≠ [] := helems e (List.mem_cons_self e rest)
      have hcons : accLen + (e.length + (if 0 < accLen then sep.length else 0)) =
          (joinSep sep (e :: acc)).length := by
        rcases eq_or_ne acc [] with rfl | hane
        · have h0 : accLen = 0 := by rw [hlen]; rfl
          rw [h0]
          simp [joinSep]
        · have hpos : 0 < accLen := by
            rw [hlen]
            exact joinSep_pos sep acc hane hacc
          rw [joinSep_cons sep e acc hane, if_pos hpos, hlen]
          simp only [List.length_append]
          omega
      refine ih (e :: acc) _ (fun p hp => helems p (List.mem_cons_of_mem e hp)) ?_
        hcons (by omega)
      intro p hp
      rcases List.mem_cons.mp hp with rfl | hp
      · exact he
      · exact hacc p hp

/-- Size invariant of the merge loop: when every piece is non-empty, the
tracked length is the exact length of the joined accumulator, and every
emitted chunk is at most `chunk_size + chunk_overlap + B` characters,
where `B` bounds the separator length (recursive calls on oversized
pieces are assumed bounded the same way, and with no lower-priority
separators every piece must already fit). -/
theorem mergeGo_bound (sub : List Char → List (List Char)) (sep : List Char)
    (chunkSize overlap : Nat) (hasNew : Bool) (B : Nat) (hsepB : sep.length ≤ B) :
    ∀ splits final cur curLen,
      (∀ p ∈ splits, p ≠ []) →
      (∀ s ∈ splits, chunkSize < s.length →
        ∀ c ∈ sub s, c.length ≤ chunkSize + overlap + B) →
      (hasNew = false → ∀ s ∈ splits, s.length ≤ chunkSize) →
      (∀ c ∈ final, c.length ≤ chunkSize + overlap + B) →
      (∀ p ∈ cur, p ≠ []) →
      curLen = (joinSep sep cur).length →
      curLen ≤ chunkSize + overlap + B →
      ∀ c ∈ mergeGo sub sep chunkSize overlap hasNew splits final cur curLen,
        c.length ≤ chunkSize + overlap + B := by
  intro splits
  induction splits with
  | nil =>
    intro final cur curLen _ _ _ hfin _ hlen hbud c hc
    rw [mergeGo, flushIfAny] at hc
    rcases List.mem_append.mp hc with hc | hc
    · exact hfin c hc
    · rcases eq_or_ne cur [] with rfl | hne
      · simp at hc
      · rw [if_neg (by simpa using hne), List.mem_singleton] at hc
        subst hc
        rw [← hlen]
        exact hbud
  | cons s rest ih =>
    intro final cur curLen hne hsub hsmall hfin hcur hlen hbud c hc
    have hflushBound : ∀ c' ∈ flushIfAny sep final cur,
        c'.length ≤ chunkSize + overlap + B := by
      intro c' hc'
      rw [flushIfAny] at hc'
      rcases List.mem_append.mp hc' with hc' | hc'
      · exact hfin c' hc'
      · rcases eq_or_ne cur [] with rfl | hne2
        · simp at hc'
        · rw [if_neg (by simpa using hne2), List.mem_singleton] at hc'
          subst hc'
          rw [← hlen]
          exact hbud
    rw [mergeGo] at hc
    split at hc
    · rename_i hbig
      refine ih _ [] 0 (fun p hp => hne p (List.mem_cons_of_mem s hp))
        (fun p hp h => hsub p (List.mem_cons_of_mem s hp) h)
        (fun hn p hp => hsmall hn p (List.mem_cons_of_mem s hp))
        ?_ (by simp) rfl (Nat.zero_le _) c hc
      intro c' hc'
      rcases List.mem_append.mp hc' with hc' | hc'
      · exact hflushBound c' hc'
      · split at hc'
        · exact hsub s (List.mem_cons_self s rest) hbig c' hc'
        · rename_i hnottrue
          have hn : hasNew = false := by
            cases hasNew with
            | true => exact absurd rfl hnottrue
            | false => rfl
          exact absurd hbig (Nat.not_lt.mpr (hsmall hn s (List.mem_cons_self s rest)))
    · rename_i hfit
      have hsfit : s.length ≤ chunkSize := Nat.not_lt.mp hfit
      have hs : s ≠ [] := hne s (List.mem_cons_self s rest)
      have hcur_iff : cur.isEmpty = true ↔ curLen = 0 := by
        constructor
        · intro hcv
          rw [hlen, List.isEmpty_iff.mp hcv]
          rfl
        · intro hc0
          by_contra hcnv
          have : 0 < curLen := by
            rw [hlen]
            exact joinSep_pos sep cur (by simpa [List.isEmpty_iff] using hcnv) hcur
          omega
      by_cases hover : chunkSize < curLen + (if 0 < curLen then sep.length else 0) + s.length
      · by_cases hcv : cur.isEmpty = true
        · exfalso
          have hc0 : curLen = 0 := hcur_iff.mp hcv
          rw [hc0] at hover
          simp at hover
          omega
        · have hstep : stepState sep chunkSize overlap final cur curLen s =
              (final ++ [joinSep sep cur],
                (overlapGo sep.length overlap cur.reverse [] 0).1,
                (overlapGo sep.length overlap cur.reverse [] 0).2) := by
            rw [stepState, if_pos hover, if_neg hcv]
          rw [hstep] at hc
          dsimp only at hc
          obtain ⟨hO1, hO2, hO3⟩ := overlapGo_spec sep overlap cur.reverse [] 0
            (fun p hp => hcur p (List.mem_reverse.mp hp)) (by simp) rfl (Nat.zero_le _)
          refine ih _ _ _ (fun p hp => hne p (List.mem_cons_of_mem s hp))
            (fun p hp h => hsub p (List.mem_cons_of_mem s hp) h)
            (fun hn p hp => hsmall hn p (List.mem_cons_of_mem s hp))
            ?_ ?_ ?_ ?_ c hc
          · intro c' hc'
            rcases List.mem_append.mp hc' with hc' | hc'
            · exact hfin c' hc'
            · rw [List.mem_singleton] at hc'
              subst hc'
              rw [← hlen]
              exact hbud
          · intro p hp
            rcases List.mem_append.mp hp with hp | hp
            · exact hO3 p hp
            · rw [List.mem_singleton] at hp
              subst hp
              exact hs
          · rw [joinSep_snoc_length, ← hO1]
          · have hsepite :
                (if (overlapGo sep.length overlap cur.reverse [] 0).1.isEmpty = true then 0
                  else sep.length) ≤ B := by
              split
              · exact Nat.zero_le _
              · exact hsepB
            omega
      · have hstep : stepState sep chunkSize overlap final cur curLen s =
            (final, cur, curLen) := by
          rw [stepState, if_neg hover]
        rw [hstep] at hc
        dsimp only at hc
        have hite : (if cur.isEmpty then 0 else sep.length) =
            (if 0 < curLen then sep.length else 0) := by
          by_cases hcv : cur.isEmpty = true
          · rw [if_pos hcv, if_neg (by have := hcur_iff.mp hcv; omega)]
          · rw [if_neg hcv]
            have : curLen ≠ 0 := fun h0 => hcv (hcur_iff.mpr h0)
            rw [if_pos (by omega)]
        refine ih _ _ _ (fun p hp => hne p (List.mem_cons_of_mem s hp))
          (fun p hp h => hsub p (List.mem_cons_of_mem s hp) h)
          (fun hn p hp => hsmall hn p (List.mem_cons_of_mem s hp))
          hfin ?_ ?_ ?_ c hc
        · intro p hp
          rcases List.mem_append.mp hp with hp | hp
          · exact hcur p hp
          · rw [List.mem_singleton] at hp
            subst hp
            exact hs
        · rw [joinSep_snoc_length, ← hlen]
        · rw [hite]
          omega

/-- Chunk sizes of `_recursive_split` when the separator list still
contains the empty separator, all separators are at most `B` characters,
and every produced piece is non-empty: every chunk is at most
`chunk_size + chunk_overlap + B` characters. -/
theorem recursiveSplit_bound (chunkSize overlap B : Nat) (hsize : 1 ≤ chunkSize) :
    ∀ seps text, [] ∈ seps → (∀ s ∈ seps, s.length ≤ B) →
      goodPiecesB chunkSize seps text = true →
      ∀ c ∈ recursiveSplit chunkSize overlap seps text,
        c.length ≤ chunkSize + overlap + B := by
  intro seps
  induction seps with
  | nil => intro text hmem; simp at hmem
  | cons sep rest ih =>
    intro text hmem hlenB hgood c hc
    rw [recursiveSplit] at hc
    beta_reduce at hc
    split at hc
    · refine mergeGo_bound (fun _ => []) [] chunkSize overlap false B (by simp)
        _ [] [] 0 (by simp) (by simp) ?_ (by simp) (by simp) rfl (Nat.zero_le _) c hc
      intro _ s hs
      simp only [List.mem_map] at hs
      obtain ⟨x, _, rfl⟩ := hs
      simpa using hsize
    · split at hc
      · rename_i hsep hrest
        exfalso
        rcases List.mem_cons.mp hmem with h | h
        · exact hsep (by rw [← h]; rfl)
        · rw [List.isEmpty_iff.mp hrest] at h
          simp at h
      · rename_i hsep hrest
        have hmemrest : [] ∈ rest := by
          rcases List.mem_cons.mp hmem with h | h
          · exact absurd (by rw [← h]; rfl) hsep
          · exact h
        have hlenrest : ∀ s ∈ rest, s.length ≤ B :=
          fun s hs => hlenB s (List.mem_cons_of_mem sep hs)
        rw [goodPiecesB] at hgood
        beta_reduce at hgood
        rw [if_neg hsep, if_neg hrest] at hgood
        split at hc
        · rename_i hin
          rw [if_pos hin, List.all_eq_true] at hgood
          refine mergeGo_bound (recursiveSplit chunkSize overlap rest) sep chunkSize
            overlap true B (hlenB sep (List.mem_cons_self sep rest))
            _ [] [] 0 ?_ ?_ (by intro h; exact absurd h (by simp)) (by simp) (by simp)
            rfl (Nat.zero_le _) c hc
          · intro p hp
            have := hgood p hp
            simp only [Bool.and_eq_true, Bool.not_eq_true'] at this
            exact fun h0 => by
              rw [h0] at this
              simpa using this.1
          · intro p hp hbig c' hc'
            have := hgood p hp
            simp only [Bool.and_eq_true, Bool.or_eq_true, decide_eq_true_eq] at this
            rcases this.2 with h | h
            · omega
            · exact ih p hmemrest hlenrest h c' hc'
        · rename_i hin
          rw [if_neg hin] at hgood
          exact ih text hmemrest hlenrest hgood c hc

/-- C1 counterexample: with the default separators, `chunk_size = 10` and
`chunk_overlap = 9 < 10`, `chunk_text("AAAA BBBB CCCC DDDD")` emits the
chunk `"AAAA BBBB CCCC"` of length 14 > 10: after a flush the overlap
seed plus the next piece may exceed `chunk_size` and is flushed as an
oversized chunk. -/
theorem claim1_counterexample :
    ∃ c ∈ chunkText ("AAAA BBBB CCCC DDDD".data) 10 9, 10 < c.length := by
  decide

/-- C1 amended: with the default separator list, `chunk_size > 0` and
`0 ≤ chunk_overlap < chunk_size`, and when no split level produces an
empty piece (no leading, trailing or consecutive separator occurrences,
recursively), every chunk returned by `chunk_text` has length at most
`chunk_size + chunk_overlap + 2`, where 2 is the largest separator
length; the bound `chunk_size` itself can be exceeded by an overlap seed
plus the following piece, and with empty pieces the overlap accounting
undercounts separators so that no uniform bound holds at all. -/
theorem claim1_size_bound_amended (text : List Char) (chunkSize overlap : Nat)
    (hsize : 0 < chunkSize) (hov : overlap < chunkSize)
    (hgood : goodPiecesB chunkSize defaultSeparators text = true) :
    ∀ c ∈ chunkText text chunkSize overlap, c.length ≤ chunkSize + overlap + 2 := by
  intro c hc
  rw [chunkText] at hc
  split at hc
  · simp at hc
  · exact recursiveSplit_bound chunkSize overlap 2 hsize defaultSeparators text
      (by decide) (by decide) hgood c hc

/-- C1 witness: a concrete in-bound instance of the amended size bound. -/
theorem claim1_witness : (("AAAA\n\nBBBB".data)).length ≤ 10 + 4 + 2 :=
  claim1_size_bound_amended ("AAAA\n\nBBBB\n\nCCCC".data) 10 4 (by decide) (by decide)
    (by decide) ("AAAA\n\nBBBB".data) (by decide)

/-- Characters that can trigger the entity, tag or markdown stages of
`normalize_text`; on text avoiding them those stages are no-ops. -/
def excludedChars : List Char := ['&', '<', '#', '*', '_', '`', '[']

/-- Entity decoding is the identity on ampersand-free text. -/
theorem htmlUnescapeF_id : ∀ fuel l, l.length ≤ fuel → '&' ∉ l →
    htmlUnescapeF fuel l = l := by
  intro fuel
  induction fuel with
  | zero =>
    intro l hlen _
    obtain rfl := List.length_eq_zero.mp (Nat.le_zero.mp hlen)
    rfl
  | succ fuel ih =>
    intro l hlen hmem
    match l with
    | [] => rfl
    | c :: rest =>
      have hc : ¬ c = '&' := fun h => hmem (by rw [h] at *; exact List.mem_cons_self _ _)
      rw [htmlUnescapeF, if_neg hc,
        ih rest (by simp only [List.length_cons] at hlen; omega)
          (fun h => hmem (List.mem_cons_of_mem c h))]

/-- Tag removal is the identity on text without an opening angle
bracket. -/
theorem subTagsF_id : ∀ fuel l, l.length ≤ fuel → '<' ∉ l → subTagsF fuel l = l := by
  intro fuel
  induction fuel with
  | zero =>
    intro l hlen _
    obtain rfl := List.length_eq_zero.mp (Nat.le_zero.mp hlen)
    rfl
  | succ fuel ih =>
    intro l hlen hmem
    match l with
    | [] => rfl
    | c :: rest =>
      have hc : ¬ c = '<' := fun h => hmem (by rw [h] at *; exact List.mem_cons_self _ _)
      rw [subTagsF, if_neg hc,
        ih rest (by simp only [List.length_cons] at hlen; omega)
          (fun h => hmem (List.mem_cons_of_mem c h))]

/-- Link replacement is the identity on text without an opening square
bracket. -/
theorem subLinksF_id : ∀ fuel l, l.length ≤ fuel → '[' ∉ l → subLinksF fuel l = l := by
  intro fuel
  induction fuel with
  | zero =>
    intro l hlen _
    obtain rfl := List.length_eq_zero.mp (Nat.le_zero.mp hlen)
    rfl
  | succ fuel ih =>
    intro l hlen hmem
    match l with
    | [] => rfl
    | c :: rest =>
      have hc : ¬ c = '[' := fun h => hmem (by rw [h] at *; exact List.mem_cons_self _ _)
      rw [subLinksF, if_neg hc,
        ih rest (by simp only [List.length_cons] at hlen; omega)
          (fun h => hmem (List.mem_cons_of_mem c h))]

/-- Image removal is the identity on text without an opening square
bracket (the pattern needs `![`). -/
theorem subImagesF_id : ∀ fuel l, l.length ≤ fuel → '[' ∉ l → subImagesF fuel l = l := by
  intro fuel
  induction fuel with
  | zero =>
    intro l hlen _
    obtain rfl := List.length_eq_zero.mp (Nat.le_zero.mp hlen)
    rfl
  | succ fuel ih =>
    intro l hlen hmem
    match l with
    | [] => rfl
    | c :: rest =>
      have hrest := ih rest (by simp only [List.length_cons] at hlen; omega)
        (fun h => hmem (List.mem_cons_of_mem c h))
      have hside : ∀ rest1 : List Char, rest = '[' :: rest1 → False := by
        intro rest1 heq
        exact hmem (by rw [heq]; exact List.mem_cons_of_mem c (List.mem_cons_self '[' rest1))
      rw [subImagesF.eq_4 fuel c rest hside, ite_self, hrest]

/-- Heading removal is the identity on text without a hash character. -/
theorem subHeadersF_id : ∀ fuel atStart l, l.length ≤ fuel → '#' ∉ l →
    subHeadersF fuel atStart l = l := by
  intro fuel
  induction fuel with
  | zero =>
    intro atStart l hlen _
    obtain rfl := List.length_eq_zero.mp (Nat.le_zero.mp hlen)
    rfl
  | succ fuel ih =>
    intro atStart l hlen hmem
    match l with
    | [] => rfl
    | c :: rest =>
      have hc : ¬ (c == '#') = true := by
        simp only [beq_iff_eq]
        exact fun h => hmem (by rw [h] at *; exact List.mem_cons_self _ _)
      rw [subHeadersF, if_neg (by simp [hc]),
        ih _ rest (by simp only [List.length_cons] at hlen; omega)
          (fun h => hmem (List.mem_cons_of_mem c h))]

/-- Emphasis unwrapping is the identity on text without markers. -/
theorem subBoldF_id : ∀ fuel l, l.length ≤ fuel → (∀ c ∈ l, isMark c = false) →
    subBoldF fuel l = l := by
  intro fuel
  induction fuel with
  | zero =>
    intro l hlen _
    obtain rfl := List.length_eq_zero.mp (Nat.le_zero.mp hlen)
    rfl
  | succ fuel ih =>
    intro l hlen hmem
    match l with
    | [] => rfl
    | c :: rest =>
      rw [subBoldF, if_neg (by rw [hmem c (List.mem_cons_self _ _)]; simp),
        ih rest (by simp only [List.length_cons] at hlen; omega)
          (fun d hd => hmem d (List.mem_cons_of_mem c hd))]

/-- Fence removal is the identity on backtick-free text. -/
theorem subFencesF_id : ∀ fuel l, l.length ≤ fuel → '`' ∉ l → subFencesF fuel l = l := by
  intro fuel
  induction fuel with
  | zero =>
    intro l hlen _
    obtain rfl := List.length_eq_zero.mp (Nat.le_zero.mp hlen)
    rfl
  | succ fuel ih =>
    intro l hlen hmem
    match l with
    | [] => rfl
    | c :: rest =>
      have hc : ¬ c = '`' := fun h => hmem (by rw [h] at *; exact List.mem_cons_self _ _)
      rw [subFencesF, if_neg hc,
        ih rest (by simp only [List.length_cons] at hlen; omega)
          (fun h => hmem (List.mem_cons_of_mem c h))]
      intro rest1 heq
      exact hmem (by rw [heq]; exact List.mem_cons_of_mem c (List.mem_cons_self _ _))

/-- Inline-code unwrapping is the identity on backtick-free text. -/
theorem subInlineF_id : ∀ fuel l, l.length ≤ fuel → '`' ∉ l → subInlineF fuel l = l := by
  intro fuel
  induction fuel with
  | zero =>
    intro l hlen _
    obtain rfl := List.length_eq_zero.mp (Nat.le_zero.mp hlen)
    rfl
  | succ fuel ih =>
    intro l hlen hmem
    match l with
    | [] => rfl
    | c :: rest =>
      have hc : ¬ c = '`' := fun h => hmem (by rw [h] at *; exact List.mem_cons_self _ _)
      rw [subInlineF, if_neg hc,
        ih rest (by simp only [List.length_cons] at hlen; omega)
          (fun h => hmem (List.mem_cons_of_mem c h))]

/-- The whole markup pipeline (entities, tags, markdown) is the identity
on text avoiding the trigger characters. -/
theorem markup_id (l : List Char) (h : ∀ c ∈ l, c ∉ excludedChars) :
    cleanMarkdown (cleanHtml l) = l := by
  have hmem : ∀ a, a ∈ excludedChars → a ∉ l := fun a ha hal => h a hal ha
  have h1 : htmlUnescape l = l :=
    htmlUnescapeF_id _ l le_rfl (hmem '&' (by decide))
  have h2 : subTags l = l := subTagsF_id _ l le_rfl (hmem '<' (by decide))
  have h3 : subLinks l = l := subLinksF_id _ l le_rfl (hmem '[' (by decide))
  have h4 : subImages l = l := subImagesF_id _ l le_rfl (hmem '[' (by decide))
  have h5 : subHeaders l = l := subHeadersF_id _ true l le_rfl (hmem '#' (by decide))
  have h6 : subBold l = l := by
    refine subBoldF_id _ l le_rfl ?_
    intro c hc
    rw [isMark]
    have hstar : ¬ c = '*' := fun he => hmem '*' (by decide) (he ▸ hc)
    have hund : ¬ c = '_' := fun he => hmem '_' (by decide) (he ▸ hc)
    simp [hstar, hund]
  have h7 : subFences l = l := subFencesF_id _ l le_rfl (hmem '`' (by decide))
  have h8 : subInline l = l := subInlineF_id _ l le_rfl (hmem '`' (by decide))
  rw [cleanHtml, htmlUnescape] at *
  rw [h1, subTags] at *
  rw [h2, cleanMarkdown, subLinks] at *
  rw [h3, subImages] at *
  rw [h4, subHeaders] at *
  rw [h5, subBold] at *
  rw [h6, subFences] at *
  rw [h7, subInline] at *
  rw [h8]

/-- The replaced characters of `remove_special_chars`. -/
def typoOlds : List Char := typoTable.map (fun e => e.1)

/-- A character that survives `remove_special_chars` unchanged: neither a
removed control character nor a replaced typographic character. -/
def cleanChar (c : Char) : Bool := !isRemovedCtrl c && !(decide (c ∈ typoOlds))

/-- Membership after a single-character replacement. -/
theorem replaceCharStr_mem {old : Char} {new x : List Char} {c : Char}
    (h : c ∈ replaceCharStr old new x) : c ∈ new ∨ (c ∈ x ∧ c ≠ old) := by
  rw [replaceCharStr, List.mem_flatMap] at h
  obtain ⟨a, ha, hc⟩ := h
  by_cases hao : a = old
  · rw [if_pos hao] at hc
    exact Or.inl hc
  · rw [if_neg hao] at hc
    rw [List.mem_singleton] at hc
    subst hc
    exact Or.inr ⟨ha, hao⟩

/-- A replacement whose target is absent is the identity. -/
theorem replaceCharStr_id {old : Char} {new : List Char} :
    ∀ x : List Char, old ∉ x → replaceCharStr old new x = x := by
  intro x
  induction x with
  | nil => intro _; rfl
  | cons a rest ih =>
    intro h
    show (if a = old then new else [a]) ++ replaceCharStr old new rest = a :: rest
    rw [if_neg (fun he => h (by rw [← he]; exact List.mem_cons_self a rest)),
      ih (fun hm => h (List.mem_cons_of_mem a hm))]
    rfl

/-- Invariant for a fold of character replacements: if every character is
already good or scheduled for replacement, every replacement string is
good, and no replacement string contains a scheduled character, then
every character of the result is good. -/
theorem foldl_replace_all (P : Char → Bool) :
    ∀ (table : List (Char × List Char)) (x : List Char),
      (∀ c ∈ x, P c = true ∨ ∃ e ∈ table, c = e.1) →
      (∀ e ∈ table, ∀ d ∈ e.2, P d = true) →
      (∀ e ∈ table, ∀ d ∈ e.2, ∀ e2 ∈ table, d ≠ e2.1) →
      ∀ c ∈ table.foldl (fun acc e => replaceCharStr e.1 e.2 acc) x, P c = true := by
  intro table
  induction table with
  | nil =>
    intro x h1 _ _ c hc
    rw [List.foldl_nil] at hc
    rcases h1 c hc with h | ⟨e, he, _⟩
    · exact h
    · simp at he
  | cons e es ih =>
    intro x h1 h2 h3 c hc
    rw [List.foldl_cons] at hc
    refine ih (replaceCharStr e.1 e.2 x) ?_ ?_ ?_ c hc
    · intro d hd
      rcases replaceCharStr_mem hd with hd | ⟨hdx, hne⟩
      · exact Or.inl (h2 e (List.mem_cons_self e es) d hd)
      · rcases h1 d hdx with h | ⟨e2, he2, heq⟩
        · exact Or.inl h
        · rcases List.mem_cons.mp he2 with rfl | he2
          · exact absurd heq hne
          · exact Or.inr ⟨e2, he2, heq⟩
    · exact fun e2 he2 => h2 e2 (List.mem_cons_of_mem e he2)
    · exact fun e2 he2 d hd e3 he3 =>
        h3 e2 (List.mem_cons_of_mem e he2) d hd e3 (List.mem_cons_of_mem e he3)

/-- A fold of replacements whose targets are all absent is the identity. -/
theorem foldl_replace_id :
    ∀ (table : List (Char × List Char)) (x : List Char),
      (∀ e ∈ table, e.1 ∉ x) →
      table.foldl (fun acc e => replaceCharStr e.1 e.2 acc) x = x := by
  intro table
  induction table with
  | nil => intro x _; rfl
  | cons e es ih =>
    intro x h
    rw [List.foldl_cons, replaceCharStr_id x (h e (List.mem_cons_self e es))]
    exact ih x (fun e2 he2 => h e2 (List.mem_cons_of_mem e he2))

/-- Every character surviving `remove_special_chars` is clean. -/
theorem removeSpecialChars_clean (l : List Char) :
    ∀ c ∈ removeSpecialChars l, cleanChar c = true := by
  intro c hc
  rw [removeSpecialChars] at hc
  refine foldl_replace_all cleanChar typoTable _ ?_ (by decide) (by decide) c hc
  intro d hd
  have hdctrl : (!isRemovedCtrl d) = true :=
    List.of_mem_filter (p := fun c => !isRemovedCtrl c) hd
  by_cases hdt : d ∈ typoOlds
  · right
    rw [typoOlds, List.mem_map] at hdt
    obtain ⟨e, he, heq⟩ := hdt
    exact ⟨e, he, heq.symm⟩
  · left
    rw [cleanChar, hdctrl]
    simp [hdt]

/-- `remove_special_chars` is the identity on clean text. -/
theorem removeSpecialChars_fixed (l : List Char) (h : ∀ c ∈ l, cleanChar c = true) :
    removeSpecialChars l = l := by
  have hparts : ∀ c ∈ l, (!isRemovedCtrl c) = true ∧ c ∉ typoOlds := by
    intro c hc
    have := h c hc
    rw [cleanChar, Bool.and_eq_true] at this
    refine ⟨this.1, ?_⟩
    have h2 := this.2
    rw [Bool.not_eq_true', decide_eq_false_iff_not] at h2
    exact h2
  rw [removeSpecialChars, List.filter_eq_self.mpr (fun c hc => (hparts c hc).1)]
  refine foldl_replace_id typoTable l ?_
  intro e he hmem
  exact (hparts e.1 hmem).2 (by rw [typoOlds]; exact List.mem_map.mpr ⟨e, he, rfl⟩)

/-- Characters of `remove_special_chars` output come from the input or
from a replacement string. -/
theorem removeSpecialChars_subset (l : List Char) :
    ∀ c ∈ removeSpecialChars l, c ∈ l ∨ ∃ e ∈ typoTable, c ∈ e.2 := by
  intro c hc
  rw [removeSpecialChars] at hc
  have hgen : ∀ (table : List (Char × List Char)) (x : List Char),
      ∀ d ∈ table.foldl (fun acc e => replaceCharStr e.1 e.2 acc) x,
        d ∈ x ∨ ∃ e ∈ table, d ∈ e.2 := by
    intro table
    induction table with
    | nil =>
      intro x d hd
      rw [List.foldl_nil] at hd
      exact Or.inl hd
    | cons e es ih =>
      intro x d hd
      rw [List.foldl_cons] at hd
      rcases ih (replaceCharStr e.1 e.2 x) d hd with hd | ⟨e2, he2, hin⟩
      · rcases replaceCharStr_mem hd with hd | ⟨hdx, _⟩
        · exact Or.inr ⟨e, List.mem_cons_self e es, hd⟩
        · exact Or.inl hdx
      · exact Or.inr ⟨e2, List.mem_cons_of_mem e he2, hin⟩
  rcases hgen typoTable _ c hc with hc2 | hc2
  · exact Or.inl (List.mem_of_mem_filter hc2)
  · exact Or.inr hc2

/-- No two adjacent spaces occur. -/
def noSS (l : List Char) : Prop := ¬ ([' ', ' '] <:+: l)

/-- No three adjacent newlines occur. -/
def noNNN (l : List Char) : Prop := ¬ (['\n', '\n', '\n'] <:+: l)

/-- Absence of a pattern passes to contiguous substrings. -/
theorem noSS_mono {l1 l2 : List Char} (h : l1 <:+: l2) (h2 : noSS l2) : noSS l1 :=
  fun hin => h2 (hin.trans h)

/-- Absence of a pattern passes to contiguous substrings. -/
theorem noNNN_mono {l1 l2 : List Char} (h : l1 <:+: l2) (h2 : noNNN l2) : noNNN l1 :=
  fun hin => h2 (hin.trans h)

/-- The head of a `dropWhile` result fails the predicate. -/
theorem head?_dropWhile_not (p : Char → Bool) :
    ∀ (l : List Char) (a : Char), (l.dropWhile p).head? = some a → p a = false := by
  intro l
  induction l with
  | nil => intro a h; simp [List.dropWhile] at h
  | cons c rest ih =>
    intro a h
    by_cases hp : p c = true
    · rw [List.dropWhile_cons_of_pos hp] at h
      exact ih a h
    · rw [List.dropWhile_cons_of_neg hp] at h
      simp only [List.head?_cons, Option.some.injEq] at h
      subst h
      exact Bool.not_eq_true _ ▸ Bool.of_not_eq_true hp

/-- Space collapsing preserves the head character. -/
theorem collapseSpF_head : ∀ fuel l, l.length ≤ fuel →
    (collapseSpF fuel l).head? = l.head? := by
  intro fuel
  induction fuel with
  | zero =>
    intro l hlen
    obtain rfl := List.length_eq_zero.mp (Nat.le_zero.mp hlen)
    rfl
  | succ fuel _ =>
    intro l _
    match l with
    | [] => rfl
    | c :: rest =>
      rw [collapseSpF]
      split
      · rename_i hc
        rw [hc]
        rfl
      · rfl

/-- Newline collapsing preserves the head character. -/
theorem collapseNLF_head : ∀ fuel l, l.length ≤ fuel →
    (collapseNLF fuel l).head? = l.head? := by
  intro fuel
  induction fuel with
  | zero =>
    intro l hlen
    obtain rfl := List.length_eq_zero.mp (Nat.le_zero.mp hlen)
    rfl
  | succ fuel _ =>
    intro l _
    match l with
    | [] => rfl
    | c :: rest =>
      rw [collapseNLF]
      split
      · rename_i hc
        rw [Bool.and_eq_true, beq_iff_eq] at hc
        rw [hc.1]
        rfl
      · rfl

/-- Output of space collapsing has no two adjacent spaces. -/
theorem noSS_collapseSpF : ∀ fuel l, l.length ≤ fuel → noSS (collapseSpF fuel l) := by
  intro fuel
  induction fuel with
  | zero =>
    intro l hlen
    obtain rfl := List.length_eq_zero.mp (Nat.le_zero.mp hlen)
    rw [noSS, collapseSpF]
    simp [List.infix_nil]
  | succ fuel ih =>
    intro l hlen
    match l with
    | [] =>
      rw [noSS, collapseSpF]
      simp [List.infix_nil]
    | c :: rest =>
      rw [collapseSpF]
      split
      · rename_i hc
        intro hin
        have hd : (rest.dropWhile (· = ' ')).length ≤ fuel := by
          have := (List.dropWhile_sublist (l := rest) (· = ' ')).length_le
          simp only [List.length_cons] at hlen
          omega
        rcases List.infix_cons_iff.mp hin with hpre | hin2
        · rcases List.cons_prefix_cons.mp hpre with ⟨_, hpre2⟩
          obtain ⟨t, ht⟩ := hpre2
          have hh : (collapseSpF fuel (rest.dropWhile (· = ' '))).head? = some ' ' := by
            rw [← ht]
            rfl
          rw [collapseSpF_head fuel _ hd] at hh
          have := head?_dropWhile_not (· = ' ') rest ' ' hh
          simp at this
        · exact ih _ hd hin2
      · intro hin
        rcases List.infix_cons_iff.mp hin with hpre | hin2
        · rename_i hc
          rcases List.cons_prefix_cons.mp hpre with ⟨heq, _⟩
          exact hc heq.symm
        · exact ih rest (by simp only [List.length_cons] at hlen; omega) hin2

/-- Space collapsing is the identity on text without adjacent spaces. -/
theorem collapseSpF_fixed : ∀ fuel l, l.length ≤ fuel → noSS l →
    collapseSpF fuel l = l := by
  intro fuel
  induction fuel with
  | zero =>
    intro l hlen _
    obtain rfl := List.length_eq_zero.mp (Nat.le_zero.mp hlen)
    rfl
  | succ fuel ih =>
    intro l hlen hss
    match l with
    | [] => rfl
    | c :: rest =>
      have hss2 : noSS rest :=
        noSS_mono ((List.suffix_cons c rest).isInfix) hss
      rw [collapseSpF]
      split
      · rename_i hc
        have hdrop : rest.dropWhile (· = ' ') = rest := by
          cases rest with
          | nil => rfl
          | cons d r =>
            refine List.dropWhile_cons_of_neg ?_
            intro hd
            simp only [decide_eq_true_eq] at hd
            refine hss (List.IsPrefix.isInfix ⟨r, ?_⟩)
            rw [hc, hd]
            rfl
        rw [hdrop, hc,
          ih rest (by simp only [List.length_cons] at hlen; omega) hss2]
      · rw [ih rest (by simp only [List.length_cons] at hlen; omega) hss2]

/-- Newline collapsing preserves the first two characters. -/
theorem collapseNLF_take2 : ∀ fuel l, l.length ≤ fuel →
    (collapseNLF fuel l).take 2 = l.take 2 := by
  intro fuel
  induction fuel with
  | zero =>
    intro l hlen
    obtain rfl := List.length_eq_zero.mp (Nat.le_zero.mp hlen)
    rfl
  | succ fuel _ =>
    intro l hlen
    match l with
    | [] => rfl
    | c :: rest =>
      rw [collapseNLF]
      split
      · rename_i hc
        rw [Bool.and_eq_true, beq_iff_eq, beq_iff_eq] at hc
        cases rest with
        | nil => simp at hc
        | cons d r =>
          have ht2 := hc.2
          rw [List.take_succ_cons] at ht2
          have hd : d = '\n' := (List.cons_eq_cons.mp ht2).1
          rw [hc.1, hd]
          rfl
      · cases rest with
        | nil =>
          have hnil : collapseNLF fuel [] = [] := by cases fuel <;> rfl
          rw [hnil]
        | cons d r =>
          have hh : (collapseNLF fuel (d :: r)).head? = some d := by
            rw [collapseNLF_head fuel (d :: r)
              (by simp only [List.length_cons] at hlen ⊢; omega)]
            rfl
          cases hout : collapseNLF fuel (d :: r) with
          | nil => rw [hout] at hh; simp at hh
          | cons e out2 =>
            rw [hout] at hh
            simp only [List.head?_cons, Option.some.injEq] at hh
            rw [hh]
            rfl

/-- Output of newline collapsing has no three adjacent newlines. -/
theorem noNNN_collapseNLF : ∀ fuel l, l.length ≤ fuel →
    noNNN (collapseNLF fuel l) := by
  intro fuel
  induction fuel with
  | zero =>
    intro l hlen
    obtain rfl := List.length_eq_zero.mp (Nat.le_zero.mp hlen)
    rw [noNNN, collapseNLF]
    simp [List.infix_nil]
  | succ fuel ih =>
    intro l hlen
    match l with
    | [] =>
      rw [noNNN, collapseNLF]
      simp [List.infix_nil]
    | c :: rest =>
      rw [collapseNLF]
      split
      · rename_i hc
        have hd : (rest.dropWhile (· = '\n')).length ≤ fuel := by
          have := (List.dropWhile_sublist (l := rest) (· = '\n')).length_le
          simp only [List.length_cons] at hlen
          omega
        have hhead : ∀ a, (collapseNLF fuel (rest.dropWhile (· = '\n'))).head? = some a →
            a ≠ '\n' := by
          intro a ha
          rw [collapseNLF_head fuel _ hd] at ha
          have := head?_dropWhile_not (· = '\n') rest a ha
          simpa using this
        intro hin
        rcases List.infix_cons_iff.mp hin with hpre | hin2
        · rcases List.cons_prefix_cons.mp hpre with ⟨_, hpre2⟩
          rcases List.cons_prefix_cons.mp hpre2 with ⟨_, hpre3⟩
          obtain ⟨t, ht⟩ := hpre3
          exact hhead '\n' (by rw [← ht]; rfl) rfl
        · rcases List.infix_cons_iff.mp hin2 with hpre | hin3
          · rcases List.cons_prefix_cons.mp hpre with ⟨_, hpre2⟩
            obtain ⟨t, ht⟩ := hpre2
            exact hhead '\n' (by rw [← ht]; rfl) rfl
          · exact ih _ hd hin3
      · intro hin
        rcases List.infix_cons_iff.mp hin with hpre | hin2
        · rename_i hc
          rcases List.cons_prefix_cons.mp hpre with ⟨hceq, hpre2⟩
          obtain ⟨t, ht⟩ := hpre2
          have htake : (collapseNLF fuel rest).take 2 = ['\n', '\n'] := by
            rw [← ht]
            rfl
          rw [collapseNLF_take2 fuel rest (by simp only [List.length_cons] at hlen; omega)]
            at htake
          apply hc
          rw [Bool.and_eq_true, beq_iff_eq, beq_iff_eq]
          exact ⟨hceq.symm, htake⟩
        · exact ih rest (by simp only [List.length_cons] at hlen; omega) hin2

/-- Newline collapsing preserves the absence of adjacent spaces. -/
theorem noSS_collapseNLF : ∀ fuel l, l.length ≤ fuel → noSS l →
    noSS (collapseNLF fuel l) := by
  intro fuel
  induction fuel with
  | zero =>
    intro l hlen _
    obtain rfl := List.length_eq_zero.mp (Nat.le_zero.mp hlen)
    rw [noSS, collapseNLF]
    simp [List.infix_nil]
  | succ fuel ih =>
    intro l hlen hss
    match l with
    | [] =>
      rw [noSS, collapseNLF]
      simp [List.infix_nil]
    | c :: rest =>
      have hss2 : noSS rest := noSS_mono ((List.suffix_cons c rest).isInfix) hss
      rw [collapseNLF]
      split
      · rename_i hc
        rw [Bool.and_eq_true, beq_iff_eq] at hc
        have hd : (rest.dropWhile (· = '\n')).length ≤ fuel := by
          have := (List.dropWhile_sublist (l := rest) (· = '\n')).length_le
          simp only [List.length_cons] at hlen
          omega
        have hssd : noSS (rest.dropWhile (· = '\n')) :=
          noSS_mono ((List.dropWhile_suffix _).isInfix) hss2
        intro hin
        rcases List.infix_cons_iff.mp hin with hpre | hin2
        · rcases List.cons_prefix_cons.mp hpre with ⟨heq, _⟩
          exact absurd heq (by decide)
        · rcases List.infix_cons_iff.mp hin2 with hpre | hin3
          · rcases List.cons_prefix_cons.mp hpre with ⟨heq, _⟩
            exact absurd heq (by decide)
          · exact ih _ hd hssd hin3
      · intro hin
        rcases List.infix_cons_iff.mp hin with hpre | hin2
        · rcases List.cons_prefix_cons.mp hpre with ⟨hceq, hpre2⟩
          cases hout : collapseNLF fuel rest with
          | nil =>
            rw [hout] at hpre2
            rcases hpre2 with ⟨t, ht⟩
            simp at ht
          | cons e out2 =>
            rw [hout] at hpre2
            rcases List.cons_prefix_cons.mp hpre2 with ⟨heq2, _⟩
            have hh : (collapseNLF fuel rest).head? = rest.head? :=
              collapseNLF_head fuel rest (by simp only [List.length_cons] at hlen; omega)
            rw [hout] at hh
            cases rest with
            | nil => simp at hh
            | cons d r =>
              simp only [List.head?_cons, Option.some.injEq] at hh
              have hd2 : d = ' ' := by rw [← hh, ← heq2]
              refine hss (List.IsPrefix.isInfix ⟨r, ?_⟩)
              rw [← hceq, hd2]
              rfl
        · exact ih rest (by simp only [List.length_cons] at hlen; omega) hss2 hin2

/-- Newline collapsing is the identity on text without triple newlines. -/
theorem collapseNLF_fixed : ∀ fuel l, l.length ≤ fuel → noNNN l →
    collapseNLF fuel l = l := by
  intro fuel
  induction fuel with
  | zero =>
    intro l hlen _
    obtain rfl := List.length_eq_zero.mp (Nat.le_zero.mp hlen)
    rfl
  | succ fuel ih =>
    intro l hlen hnn
    match l with
    | [] => rfl
    | c :: rest =>
      have hnn2 : noNNN rest := noNNN_mono ((List.suffix_cons c rest).isInfix) hnn
      rw [collapseNLF]
      split
      · rename_i hc
        exfalso
        rw [Bool.and_eq_true, beq_iff_eq, beq_iff_eq] at hc
        refine hnn (List.IsPrefix.isInfix ?_)
        have ht2 := hc.2
        cases rest with
        | nil => simp at ht2
        | cons d r =>
          cases r with
          | nil => simp at ht2
          | cons e r2 =>
            rw [List.take_succ_cons, List.take_succ_cons] at ht2
            have hd : d = '\n' := (List.cons_eq_cons.mp ht2).1
            have he : e = '\n' :=
              (List.cons_eq_cons.mp (List.cons_eq_cons.mp ht2).2).1
            refine ⟨r2, ?_⟩
            rw [hc.1, hd, he]
            rfl
      · rw [ih rest (by simp only [List.length_cons] at hlen; omega) hnn2]

/-- Stripping yields a contiguous substring. -/
theorem pyStrip_contiguous (l : List Char) : pyStrip l <:+: l := by
  rw [pyStrip]
  have h1 : (l.dropWhile isPySpace) <:+ l := List.dropWhile_suffix _
  have h2 : ((l.dropWhile isPySpace).reverse.dropWhile isPySpace) <:+
      (l.dropWhile isPySpace).reverse := List.dropWhile_suffix _
  have h3 : ((l.dropWhile isPySpace).reverse.dropWhile isPySpace).reverse <+:
      (l.dropWhile isPySpace) := by
    rw [← List.reverse_suffix]
    simpa using h2
  exact h3.isInfix.trans h1.isInfix

/-- The first character of a stripped string is not whitespace. -/
theorem head?_pyStrip (l : List Char) (a : Char) (h : (pyStrip l).head? = some a) :
    isPySpace a = false := by
  rw [pyStrip, List.head?_reverse] at h
  cases hu : (l.dropWhile isPySpace).reverse.dropWhile isPySpace with
  | nil => rw [hu] at h; simp at h
  | cons b u2 =>
    obtain ⟨t, ht⟩ := (List.dropWhile_suffix
      (l := (l.dropWhile isPySpace).reverse) isPySpace)
    rw [hu] at h ht
    have hlast : (t ++ b :: u2).getLast? = (b :: u2).getLast? := by
      rw [List.getLast?_append]
      cases hbu : (b :: u2).getLast? with
      | none => simp at hbu
      | some x => rfl
    rw [ht] at hlast
    have h2 : (l.dropWhile isPySpace).head? = some a := by
      rw [← List.getLast?_reverse, hlast]
      exact h
    exact head?_dropWhile_not isPySpace l a h2

/-- The last character of a stripped string is not whitespace. -/
theorem getLast?_pyStrip (l : List Char) (a : Char)
    (h : (pyStrip l).getLast? = some a) : isPySpace a = false := by
  rw [pyStrip, List.getLast?_reverse] at h
  exact head?_dropWhile_not isPySpace _ a h

/-- Stripping is the identity when both ends are already clean. -/
theorem pyStrip_fixed (l : List Char)
    (h1 : ∀ a, l.head? = some a → isPySpace a = false)
    (h2 : ∀ a, l.getLast? = some a → isPySpace a = false) : pyStrip l = l := by
  rw [pyStrip]
  have hd : l.dropWhile isPySpace = l := by
    cases l with
    | nil => rfl
    | cons c rest => exact List.dropWhile_cons_of_neg (by rw [h1 c rfl]; simp)
  rw [hd]
  have hd2 : l.reverse.dropWhile isPySpace = l.reverse := by
    cases hrev : l.reverse with
    | nil => rfl
    | cons c rest =>
      refine List.dropWhile_cons_of_neg ?_
      have hcl : l.getLast? = some c := by
        rw [← List.head?_reverse, hrev]
        rfl
      rw [h2 c hcl]
      simp
  rw [hd2, List.reverse_reverse]

/-- Stripping twice strips once. -/
theorem pyStrip_idem (l : List Char) : pyStrip (pyStrip l) = pyStrip l :=
  pyStrip_fixed (pyStrip l) (head?_pyStrip l) (getLast?_pyStrip l)

/-- `clean_whitespace` is idempotent. -/
theorem cleanWhitespace_idem (l : List Char) :
    cleanWhitespace (cleanWhitespace l) = cleanWhitespace l := by
  have hss : noSS (cleanWhitespace l) :=
    noSS_mono (pyStrip_contiguous _)
      (noSS_collapseNLF _ _ le_rfl (noSS_collapseSpF _ _ le_rfl))
  have hnn : noNNN (cleanWhitespace l) :=
    noNNN_mono (pyStrip_contiguous _) (noNNN_collapseNLF _ _ le_rfl)
  conv_lhs => rw [cleanWhitespace]
  rw [show collapseSpaces (cleanWhitespace l) = cleanWhitespace l from
    collapseSpF_fixed _ _ le_rfl hss]
  rw [show collapseNewlines (cleanWhitespace l) = cleanWhitespace l from
    collapseNLF_fixed _ _ le_rfl hnn]
  exact pyStrip_idem (collapseNewlines (collapseSpaces l))

/-- Everything output by space collapsing was in the input. -/
theorem collapseSpF_subset : ∀ fuel l c, c ∈ collapseSpF fuel l → c ∈ l := by
  intro fuel
  induction fuel with
  | zero => intro l c hc; rw [collapseSpF] at hc; simp at hc
  | succ fuel ih =>
    intro l c hc
    match l with
    | [] => rw [collapseSpF] at hc; simp at hc
    | a :: rest =>
      rw [collapseSpF] at hc
      split at hc
      · rename_i ha
        rcases List.mem_cons.mp hc with hceq | hc2
        · rw [hceq, ha]
          exact List.mem_cons_self _ rest
        · exact List.mem_cons_of_mem a
            ((List.dropWhile_sublist (· = ' ')).subset (ih _ c hc2))
      · rcases List.mem_cons.mp hc with hceq | hc2
        · rw [hceq]
          exact List.mem_cons_self a rest
        · exact List.mem_cons_of_mem a (ih rest c hc2)

/-- Everything output by newline collapsing was in the input. -/
theorem collapseNLF_subset : ∀ fuel l c, c ∈ collapseNLF fuel l → c ∈ l := by
  intro fuel
  induction fuel with
  | zero => intro l c hc; rw [collapseNLF] at hc; simp at hc
  | succ fuel ih =>
    intro l c hc
    match l with
    | [] => rw [collapseNLF] at hc; simp at hc
    | a :: rest =>
      rw [collapseNLF] at hc
      split at hc
      · rename_i ha
        rw [Bool.and_eq_true, beq_iff_eq] at ha
        rcases List.mem_cons.mp hc with hceq | hc2
        · rw [hceq, ha.1]
          exact List.mem_cons_self _ rest
        · rcases List.mem_cons.mp hc2 with hceq | hc3
          · rw [hceq, ha.1]
            exact List.mem_cons_self _ rest
          · exact List.mem_cons_of_mem a
              ((List.dropWhile_sublist (· = '\n')).subset (ih _ c hc3))
      · rcases List.mem_cons.mp hc with hceq | hc2
        · rw [hceq]
          exact List.mem_cons_self a rest
        · exact List.mem_cons_of_mem a (ih rest c hc2)

/-- Everything output by `clean_whitespace` was in the input. -/
theorem cleanWhitespace_subset (l : List Char) :
    ∀ c ∈ cleanWhitespace l, c ∈ l := by
  intro c hc
  have h1 : c ∈ collapseNewlines (collapseSpaces l) :=
    (pyStrip_contiguous (collapseNewlines (collapseSpaces l))).sublist.subset hc
  exact collapseSpF_subset _ _ c (collapseNLF_subset _ _ c h1)

/-- No replacement string of the typographic table introduces a
markup-trigger character. -/
theorem typoNews_not_excluded :
    ∀ e ∈ typoTable, ∀ c ∈ e.2, c ∉ excludedChars := by decide

/-- C3: `normalize_text` with `clean_html_tags=True` is NOT idempotent on
all inputs.  `html.unescape` decodes entities in a single pass, so
`"&amp;amp;"` normalizes to `"&amp;"`, which a second normalization decodes
further to `"&"`. -/
theorem claim3_counterexample :
    normalizeText (normalizeText "&amp;amp;".data true) true ≠
      normalizeText "&amp;amp;".data true := by decide

/-- C3 (amended): `normalize_text` with `clean_html_tags=True` is
idempotent on every text containing none of the markup-trigger characters
`&`, `<`, `#`, `*`, `_`, `` ` ``, `[`.  On such text the HTML and markdown
stages are the identity on both passes, the special-character replacement
is exhausted by the first pass, and whitespace collapsing plus stripping
is idempotent; without the restriction idempotence fails because entity
decoding is single-pass (see the counterexample). -/
theorem claim3_idempotent_amended (t : List Char)
    (h : ∀ c ∈ t, c ∉ excludedChars) :
    normalizeText (normalizeText t true) true = normalizeText t true := by
  by_cases ht : t.isEmpty = true
  · have h0 : normalizeText t true = [] := by rw [normalizeText, if_pos ht]
    rw [h0]
    rfl
  · have hfirst : normalizeText t true = cleanWhitespace (removeSpecialChars t) := by
      rw [normalizeText, if_neg ht, if_pos rfl, markup_id t h]
    rw [hfirst]
    have hscl : ∀ c ∈ cleanWhitespace (removeSpecialChars t),
        c ∈ removeSpecialChars t := cleanWhitespace_subset _
    by_cases hse : (cleanWhitespace (removeSpecialChars t)).isEmpty = true
    · rw [normalizeText, if_pos hse]
      exact (List.isEmpty_iff.mp hse).symm
    · have hsex : ∀ c ∈ cleanWhitespace (removeSpecialChars t),
          c ∉ excludedChars := by
        intro c hc
        rcases removeSpecialChars_subset t c (hscl c hc) with hct | ⟨e, he, hce⟩
        · exact h c hct
        · exact typoNews_not_excluded e he c hce
      rw [normalizeText, if_neg hse, if_pos rfl, markup_id _ hsex,
        removeSpecialChars_fixed _
          (fun c hc => removeSpecialChars_clean t c (hscl c hc))]
      exact cleanWhitespace_idem (removeSpecialChars t)

/-- Witness: the amended idempotence theorem applies to a concrete
markup-free text. -/
theorem claim3_witness :
    (∀ c ∈ "hello  world.\n\n\n ok".data, c ∉ excludedChars) ∧
      normalizeText (normalizeText "hello  world.\n\n\n ok".data true) true =
        normalizeText "hello  world.\n\n\n ok".data true :=
  ⟨by decide, claim3_idempotent_amended "hello  world.\n\n\n ok".data (by decide)⟩

end ItpRag
